import Mathlib

/-!
Verification of the natural-language specification of `getsentry/symbolserver`
against a shallow embedding of its source.

The repository snapshot contains two revisions of several modules.  The live
revision is the one reachable from `src/lib.rs` through `src/memdb/` (the
stash at `src/memdb/stash.rs` imports `super::read::MemDb` and
`super::write`); the single-file `src/memdb.rs` and `src/memdbstash.rs` are
duplicated older revisions kept in the tree.  The live reader module
`src/memdb/read.rs` itself is not present in the tree; definitions that come
from it are marked `Modelled from the spec:` below and follow the spec's
description of the reader (§4.2, §6.1), reusing verbatim the pieces that are
present in the tree (`binsearch_by_key` from `src/utils.rs`, and the bounds
discipline of `get_data`/`get_slice`, whose older duplicate is at
`src/memdb.rs:298-316`).

Machine integers are modelled as `Nat` with explicit `% 2^w` at the points
where the source performs `as` casts or wrapping arithmetic.  Byte buffers
are `List Nat`.  Rust's stable `sort_by_key` is modelled by
`List.insertionSort` with the non-strict key order (insertion sort is stable,
and all stable sorts agree extensionally).
-/

namespace SymbolServer

/-! ## MemDB format types, from `src/memdbtypes.rs` -/

/-- A symbol in the index (`src/memdbtypes.rs:53-60`, `IndexItem`):
packed `{addr_low:u32, addr_high:u16, src_id:u16, sym_id:u32}`. -/
structure IndexItem where
  addr_low : Nat
  addr_high : Nat
  src_id : Nat
  sym_id : Nat
  deriving DecidableEq, Repr

/-- `IndexItem::new` (`src/memdbtypes.rs:144-151`):
`addr_low = (addr & 0xffffffff) as u32`, `addr_high = ((addr >> 32) & 0xffff) as u16`,
with the `as u16`/`as u32` casts on the ids. -/
def IndexItem.new (addr src_id sym_id : Nat) : IndexItem :=
  { addr_low := addr % 2 ^ 32
    addr_high := addr / 2 ^ 32 % 2 ^ 16
    src_id := src_id % 2 ^ 16
    sym_id := sym_id % 2 ^ 32 }

/-- `IndexItem::addr` (`src/memdbtypes.rs:154-156`):
`((addr_high as u64) << 32) | (addr_low as u64)`.  Since `addr_low < 2^32`,
the bitwise or is addition. -/
def IndexItem.addr (ii : IndexItem) : Nat :=
  ii.addr_high * 2 ^ 32 + ii.addr_low

/-- Modelled from the spec: the live `src/memdb/types.rs` gives the terminal
sentinel the distinguished `sym_id` `!0` (all-ones u32); the spec calls it "a
distinguished `sym_id`" (§3) and the writer passes `None` for it
(`src/memdb/write.rs:176`). -/
def sentinelSymId : Nat := 2 ^ 32 - 1

/-- Modelled from the spec: the live `IndexItem::new` takes the symbol id as
an `Option`, substituting the sentinel id for `None`
(`src/memdb/write.rs:170,176`). -/
def IndexItem.newOpt (addr src_id : Nat) (sym_id : Option Nat) : IndexItem :=
  IndexItem.new addr src_id (sym_id.getD sentinelSymId)

/-- `IndexedUuid` (`src/memdbtypes.rs:46-50`): a 16-byte UUID plus a `u16`
index into the variants table.  UUIDs are modelled as their 128-bit value;
Rust's `Uuid` ordering is the lexicographic byte order, which is the numeric
order of that value. -/
structure IndexedUuid where
  uuid : Nat
  idx : Nat
  deriving DecidableEq, Repr

/-- `IndexedUuid::new` (`src/memdbtypes.rs:97-102`), with the `as u16` cast
on `idx`. -/
def IndexedUuid.new (uuid idx : Nat) : IndexedUuid :=
  { uuid := uuid, idx := idx % 2 ^ 16 }

end SymbolServer

/-! ## Byte-level access and the version gate

`get_data` and `get_slice` of the reader; their text in the tree is the
older duplicate at `src/memdb.rs:298-316`, which the spec describes
identically for the live reader (§4.2 "Bounds safety").  Buffers are lists
of bytes; `usize` arithmetic wraps at `2^64`. -/

namespace SymbolServer

/-- Error kinds relevant to the embedded code (`src/errors.rs`). -/
inductive MemDbError where
  | badMemDb
  | unsupportedMemDbVersion
  deriving DecidableEq, Repr

/-- `MemDb::get_data` (`src/memdb.rs:298-306`):
`end = start.wrapping_add(len)`; if `end < start || end > buffer.len()`
return `BadMemDb`, else the subslice `buffer[start..end]`. -/
def get_data (buffer : List Nat) (start len : Nat) : Except MemDbError (List Nat) :=
  let e := (start + len) % 2 ^ 64
  if e < start ∨ e > buffer.length then
    .error .badMemDb
  else
    .ok ((buffer.drop start).take (e - start))

/-- `MemDb::get_slice` (`src/memdb.rs:308-316`): reads `count` records of
byte size `sz` through `get_data(offset, count * size_of::<T>())` and
reinterprets them; the record decoding itself is not needed by the claims,
so the raw bytes are returned.  The `count * size` multiplication is `usize`
arithmetic. -/
def get_slice (buffer : List Nat) (sz offset count : Nat) :
    Except MemDbError (List Nat) :=
  get_data buffer offset (count * sz % 2 ^ 64)

/-- Byte size of `MemDbHeader` (`src/memdbtypes.rs:10-25`): `version` u32,
`PackedSdkInfo` 8+2+2+2+10 = 24 bytes, and ten u32 fields. -/
def memDbHeaderSize : Nat := 4 + 24 + 40

/-- Little-endian u32 read at `off` (packed struct field access on the
mapped buffer; bytes are `% 256` as on a real buffer). -/
def readU32 (buffer : List Nat) (off : Nat) : Nat :=
  (buffer[off]?.getD 0) % 256
    + (buffer[off + 1]?.getD 0) % 256 * 2 ^ 8
    + (buffer[off + 2]?.getD 0) % 256 * 2 ^ 16
    + (buffer[off + 3]?.getD 0) % 256 * 2 ^ 24

/-- `MemDb::header` (`src/memdb.rs:318-323` in the older duplicate):
`get_data(0, size_of::<MemDbHeader>())` reinterpreted as the header.  Only
the `version` field (the first u32) is consulted by the claims. -/
def headerVersion (buffer : List Nat) : Except MemDbError Nat := do
  let bytes ← get_data buffer 0 memDbHeaderSize
  pure (readU32 bytes 0)

/-- Modelled from the spec: `verify_version` of the live reader
`src/memdb/read.rs` (absent from the tree) rejects any header whose version
differs from the canonical version 2 (§4.2 "Versioning", §6.1 "`version` =
2 (canonical)"); its older duplicate with the same shape is
`src/memdb.rs:259-265`. -/
def memDbSupportedVersion : Nat := 2

/-- `verify_version`: `Err(UnsupportedMemDbVersion)` unless the header
version equals the supported version. -/
def verify_version (buffer : List Nat) : Except MemDbError Unit := do
  let v ← headerVersion buffer
  if v ≠ memDbSupportedVersion then
    throw .unsupportedMemDbVersion
  else
    pure ()

/-- `MemDb::from_slice` / `from_vec` / `from_path` all build the backing
buffer and run `verify_version` on it (`src/memdb.rs:269-288`); the opened
database is the buffer itself. -/
def MemDb.from_slice (buffer : List Nat) : Except MemDbError (List Nat) := do
  verify_version buffer
  pure buffer

end SymbolServer

/-! ## The writer, from `src/memdb/write.rs`

The builder state as in `MemDbBuilder` (`src/memdb/write.rs:25-39`).  Hash
maps are association lists (keys are inserted only when absent, so the list
is the map); the hash set of seen UUIDs is a list with membership test.
The by-reference input of `write_object_variant` — the variant of an object
together with the source name chosen by `write_object`
(`src/memdb/write.rs:141-149`: `var.name().or(filename).unwrap()`) and the
symbol iterator `obj.symbols(var.arch())` — is bundled as `ObjVariant`. -/

namespace SymbolServer

/-- One variant of one object as consumed by `write_object_variant`:
the fields of `dsym::Variant` (`src/dsym.rs`) plus the resolved source
name and the `(address, symbol_name)` pairs yielded by the symbol
iterator. -/
structure ObjVariant where
  uuid : Nat
  arch : String
  src : String
  vmaddr : Nat
  vmsize : Nat
  syms : List (Nat × String)
  deriving DecidableEq, Repr

/-- Builder state (`src/memdb/write.rs:25-39`); the writer/tempfile plumbing
and `symbol_count` (progress output only) carry no indexed content and are
omitted. -/
structure MemDbBuilder where
  symbols : List String
  symbols_map : List (String × Nat)
  object_names : List String
  object_names_map : List (String × Nat)
  object_uuid_mapping : List (String × Nat)
  variant_uuids : List IndexedUuid
  variant_uuids_seen : List Nat
  variants : List (List IndexItem)
  deriving Repr

/-- `MemDbBuilder::new` (`src/memdb/write.rs:55-80`): empty state. -/
def MemDbBuilder.new : MemDbBuilder :=
  { symbols := [], symbols_map := [], object_names := [], object_names_map := []
    object_uuid_mapping := [], variant_uuids := [], variant_uuids_seen := []
    variants := [] }

/-- `MemDbBuilder::add_symbol` (`src/memdb/write.rs:121-129`): dedup via the
map, else intern at `symbols.len() as u32`. -/
def MemDbBuilder.add_symbol (b : MemDbBuilder) (sym : String) : MemDbBuilder × Nat :=
  match b.symbols_map.lookup sym with
  | some sym_id => (b, sym_id)
  | none =>
    let symbol_count := b.symbols.length % 2 ^ 32
    ({ b with symbols := b.symbols ++ [sym]
              symbols_map := b.symbols_map ++ [(sym, symbol_count)] },
     symbol_count)

/-- `MemDbBuilder::add_object_name` (`src/memdb/write.rs:131-139`): dedup via
the map, else intern at `object_names.len() as u16`. -/
def MemDbBuilder.add_object_name (b : MemDbBuilder) (src : String) : MemDbBuilder × Nat :=
  match b.object_names_map.lookup src with
  | some src_id => (b, src_id)
  | none =>
    let object_count := b.object_names.length % 2 ^ 16
    ({ b with object_names := b.object_names ++ [src]
              object_names_map := b.object_names_map ++ [(src, object_count)] },
     object_count)

/-- `addr - var.vmaddr()` on u64 (`src/memdb/write.rs:170`); wrapping (release)
semantics of Rust subtraction. -/
def rustSub64 (a b : Nat) : Nat := (2 ^ 64 + a - b) % 2 ^ 64

/-- Rust's `sort_by_key(|item| item.addr())` (`src/memdb/write.rs:180`) is a
stable ascending sort by key; stable sorts are extensionally unique, and
`List.insertionSort` with the non-strict key order is one. -/
def sortByAddr (index : List IndexItem) : List IndexItem :=
  index.insertionSort (fun a b => a.addr ≤ b.addr)

/-- `MemDbBuilder::write_object_variant` (`src/memdb/write.rs:151-187`):
record the tagged `"<src>:<arch>"` alias, skip already-seen UUIDs, intern
the object name, build the `IndexItem` list (relative addresses), append the
sentinel when `vmsize > 0`, sort by stored address, and register the variant
with its `IndexedUuid`. -/
def MemDbBuilder.write_object_variant (b : MemDbBuilder) (v : ObjVariant) :
    MemDbBuilder × Bool :=
  let b := { b with object_uuid_mapping :=
      b.object_uuid_mapping ++ [(v.src ++ ":" ++ v.arch, v.uuid)] }
  if b.variant_uuids_seen.contains v.uuid then
    (b, false)
  else
    let b := { b with variant_uuids_seen := b.variant_uuids_seen ++ [v.uuid] }
    let p1 := b.add_object_name v.src
    let b := p1.1
    let src_id := p1.2
    let p2 := v.syms.foldl
      (fun (acc : MemDbBuilder × List IndexItem) (p : Nat × String) =>
        let p3 := acc.1.add_symbol p.2
        (p3.1, acc.2 ++ [IndexItem.newOpt (rustSub64 p.1 v.vmaddr) src_id (some p3.2)]))
      (b, [])
    let b := p2.1
    let index := p2.2
    let index := if v.vmsize > 0 then
        index ++ [IndexItem.newOpt v.vmsize src_id none]
      else index
    let index := sortByAddr index
    let b := { b with
      variant_uuids := b.variant_uuids ++ [IndexedUuid.new v.uuid b.variants.length]
      variants := b.variants ++ [index] }
    (b, true)

/-- The dump driver (`src/memdb/write.rs:296-315` with
`write_object`, `src/memdb/write.rs:141-149`) feeds every variant of every
object through `write_object_variant` in order. -/
def MemDbBuilder.write_objects (vs : List ObjVariant) : MemDbBuilder :=
  vs.foldl (fun b v => (b.write_object_variant v).1) MemDbBuilder.new

/-- The logical content of the file laid out by `flush`
(`src/memdb/write.rs:208-292`): each region is kept as the list of elements
written to it, in file order; byte offsets and the `StoredSlice` tables that
locate the regions are abstracted away.  `tagged_object_mapping` is the
sorted `object_uuid_mapping`; its strings are written NUL-terminated in this
order between `tagged_object_names_start` and `tagged_object_names_end`. -/
structure MemDbFile where
  version : Nat
  variants : List (List IndexItem)
  uuids : List IndexedUuid
  tagged_object_mapping : List (String × Nat)
  object_names : List String
  symbols : List String
  deriving Repr

/-- The tagged-object-names region: the `i`-th NUL-terminated record. -/
def MemDbFile.tagged_object_names (db : MemDbFile) : List String :=
  db.tagged_object_mapping.map Prod.fst

/-- `MemDbBuilder::flush` (`src/memdb/write.rs:208-292`): `version = 2`
(line 211); variant index slices in variant order (215-225);
`variant_uuids.sort_by_key(|x| x.uuid)` (231); `object_uuid_mapping.sort_by_key(|&(_, b)| b)`
(239); then object names and symbols.  `sort_by_key` is stable; see
`sortByAddr`. -/
def MemDbBuilder.flush (b : MemDbBuilder) : MemDbFile :=
  { version := 2
    variants := b.variants
    uuids := b.variant_uuids.insertionSort (fun x y => x.uuid ≤ y.uuid)
    tagged_object_mapping := b.object_uuid_mapping.insertionSort (fun x y => x.2 ≤ y.2)
    object_names := b.object_names
    symbols := b.symbols }

/-- The unsorted index a variant contributes, described relative to the
symbol ids `sids` the interner assigned to its symbol names: the per-symbol
items (`src/memdb/write.rs:167-171`), then the sentinel when `vmsize > 0`
(`src/memdb/write.rs:174-178`).  `write_object_variant` stores its sorted
form. -/
def buildIndex (v : ObjVariant) (src_id : Nat) (sids : List Nat) : List IndexItem :=
  (v.syms.zip sids).map
    (fun q => IndexItem.newOpt (rustSub64 q.1.1 v.vmaddr) src_id (some q.2))
    ++ (if 0 < v.vmsize then [IndexItem.newOpt v.vmsize src_id none] else [])

/-- The soundness invariant of the two interning maps: every recorded id
points at its string. -/
def InvMaps (b : MemDbBuilder) : Prop :=
  (∀ p ∈ b.symbols_map, b.symbols[p.2]? = some p.1) ∧
  (∀ p ∈ b.object_names_map, b.object_names[p.2]? = some p.1)

/-- Description of the builder after the writer has consumed the variants
`vs` (each with a fresh UUID): the bookkeeping lists enumerate `vs`, the
string tables are bounded, and the `k`-th stored variant is the sorted
index of `vs[k]` over interned ids that resolve to its strings. -/
def BuilderSpec (vs : List ObjVariant) (B : MemDbBuilder) : Prop :=
  B.variants.length = vs.length ∧
  B.variant_uuids.length = vs.length ∧
  B.variant_uuids_seen = vs.map (fun w => w.uuid) ∧
  B.object_uuid_mapping = vs.map (fun w => (w.src ++ ":" ++ w.arch, w.uuid)) ∧
  B.symbols.length ≤ (vs.map (fun w => w.syms.length)).sum ∧
  B.object_names.length ≤ vs.length ∧
  InvMaps B ∧
  (∀ (k : Nat) (hk : k < vs.length),
    B.variant_uuids[k]? = some (IndexedUuid.new (vs.get ⟨k, hk⟩).uuid k) ∧
    ∃ (src_id : Nat) (sids : List Nat),
      B.object_names[src_id]? = some (vs.get ⟨k, hk⟩).src ∧
      sids.length = (vs.get ⟨k, hk⟩).syms.length ∧
      (∀ (j : Nat) (hj1 : j < sids.length)
        (hj2 : j < (vs.get ⟨k, hk⟩).syms.length),
        B.symbols[sids.get ⟨j, hj1⟩]? =
          some ((vs.get ⟨k, hk⟩).syms.get ⟨j, hj2⟩).2 ∧
        sids.get ⟨j, hj1⟩ < B.symbols.length) ∧
      B.variants[k]? =
        some (sortByAddr (buildIndex (vs.get ⟨k, hk⟩) src_id sids)))

end SymbolServer

/-! ## The reader's lookup

`binsearch_by_key` is in the tree at `src/utils.rs:302-323` and is embedded
faithfully (the `while` loop becomes fuel recursion; the span `high - low`
shrinks every iteration, so `slice.length + 1` steps suffice).  The lookup
functions of the live reader `src/memdb/read.rs` are not in the tree and are
modelled from the spec (§4.2), with the older duplicate
`src/memdb.rs:375-400` as the structural guide. -/

namespace SymbolServer

/-- The `while low < high` loop of `binsearch_by_key`
(`src/utils.rs:305-316`): returns the final value of `low`. -/
def binsearchLoop {α : Type} (f : α → Nat) (slice : List α) (item : Nat) :
    Nat → Nat → Nat → Nat
  | 0, low, _high => low
  | fuel + 1, low, high =>
    if low < high then
      let mid := (low + high) / 2
      match slice[mid]? with
      | some cur =>
        if item < f cur then
          binsearchLoop f slice item fuel low mid
        else
          binsearchLoop f slice item fuel (mid + 1) high
      | none => low
    else
      low

/-- `binsearch_by_key` (`src/utils.rs:301-323`): binary search for the last
element whose key is `≤ item`; `Some(&slice[low - 1])` if `low > 0 && low <=
slice.len()`, else `None`. -/
def binsearch_by_key {α : Type} (slice : List α) (item : Nat) (f : α → Nat) :
    Option α :=
  let low := binsearchLoop f slice item (slice.length + 1) 0 slice.length
  if low > 0 ∧ low ≤ slice.length then slice[low - 1]? else none

/-- A looked-up symbol (`Symbol` of the reader; older duplicate
`src/memdb.rs:67-71`). -/
structure Symbol where
  object_name : String
  symbol : String
  addr : Nat
  deriving DecidableEq, Repr

/-- Modelled from the spec: `get_index` of the missing `src/memdb/read.rs` —
"locate UUID via binary search over the sorted UUID table; retrieve the
matching variant's IndexItem slice" (§4.2).  `binsearch_by_key` returns the
greatest entry `≤` the probe, so a found entry is checked for equality; the
`idx` field indexes the variants table (§3 `IndexedUuid`), and a
slice-reference that does not resolve is a `BadMemDb` (§4.2 "Bounds
safety"). -/
def MemDbFile.get_index (db : MemDbFile) (uuid : Nat) :
    Except MemDbError (Option (List IndexItem)) :=
  match binsearch_by_key db.uuids uuid (fun iu => iu.uuid) with
  | some iu =>
    if iu.uuid = uuid then
      match db.variants[iu.idx]? with
      | some index => .ok (some index)
      | none => .error .badMemDb
    else
      .ok none
  | none => .ok none

/-- Modelled from the spec: `index_item_to_symbol` of the missing
`src/memdb/read.rs` (older duplicate `src/memdb.rs:420-426`): resolve
`src_id` in the object-names table and `sym_id` in the symbols table; an id
outside its table is a `BadMemDb`. -/
def MemDbFile.index_item_to_symbol (db : MemDbFile) (ii : IndexItem) :
    Except MemDbError Symbol :=
  match db.object_names[ii.src_id]?, db.symbols[ii.sym_id]? with
  | some o, some s => .ok { object_name := o, symbol := s, addr := ii.addr }
  | _, _ => .error .badMemDb

/-- Modelled from the spec: `lookup_by_uuid` of the missing
`src/memdb/read.rs` — "binary-search-by-key for the greatest item whose
`addr ≤ requested_addr`; if such item exists and its symbol is not the
sentinel, return `(object_name, symbol_name, stored_addr)`" (§4.2); the
binary search is `binsearch_by_key` and the surrounding structure is the
older duplicate `src/memdb.rs:375-400`. -/
def MemDbFile.lookup_by_uuid (db : MemDbFile) (uuid addr : Nat) :
    Except MemDbError (Option Symbol) :=
  match db.get_index uuid with
  | .error e => .error e
  | .ok none => .ok none
  | .ok (some index) =>
    match binsearch_by_key index addr (fun ii => ii.addr) with
    | none => .ok none
    | some ii =>
      if ii.sym_id = sentinelSymId then
        .ok none
      else
        match db.index_item_to_symbol ii with
        | .ok sym => .ok (some sym)
        | .error e => .error e

end SymbolServer

/-! ## The stash synchronisation, from `src/memdb/stash.rs`

`sync` (`src/memdb/stash.rs:301-354`) is modelled as a pure function of the
loaded local state and the upstream listing; filesystem and network effects
(`update_sdk` downloads, `remove_sdk` deletions, `save_local_state`
persists) are returned as counts and as the sequence of persisted states.
The `HashMap<String, RemoteSdk>` is an association list with keyed insert;
iteration order of `sdks()` is the list order (arbitrary for a hash map, so
theorems must not depend on a particular order beyond what the map
determines). -/

namespace SymbolServer

/-- `SdkInfo` (`src/sdk.rs:52-59`): name, u32 version triple, build. -/
structure SdkInfo where
  name : String
  version_major : Nat
  version_minor : Nat
  version_patchlevel : Nat
  build : String
  deriving DecidableEq, Repr

/-- `RemoteSdk` (`src/memdb/stash.rs:39-45`). -/
structure RemoteSdk where
  filename : String
  info : SdkInfo
  size : Nat
  etag : String
  deriving DecidableEq, Repr

/-- `RemoteSdk::local_filename` (`src/memdb/stash.rs:80-82`):
`filename.trim_right_matches('z')` — all trailing `'z'` characters are
stripped. -/
def RemoteSdk.local_filename (sdk : RemoteSdk) : String :=
  String.mk ((sdk.filename.toList.reverse.dropWhile (fun c => c = 'z')).reverse)

/-- Keyed insert of a `HashMap<String, RemoteSdk>`: replace the value at an
existing key, else add the entry. -/
def mapInsert (m : List (String × RemoteSdk)) (k : String) (v : RemoteSdk) :
    List (String × RemoteSdk) :=
  if m.any (fun p => p.1 = k) then
    m.map (fun p => if p.1 = k then (k, v) else p)
  else
    m ++ [(k, v)]

/-- `SdkSyncState` (`src/memdb/stash.rs:47-51`): map from local filename to
`RemoteSdk`, plus `revision: Option<u64>`. -/
structure SdkSyncState where
  sdks : List (String × RemoteSdk)
  revision : Option Nat
  deriving DecidableEq, Repr

/-- The default (empty) sync state, used when no `sync.state` file exists
(`src/memdb/stash.rs:176-187`). -/
def SdkSyncState.default : SdkSyncState := { sdks := [], revision := none }

/-- `SdkSyncState::get_sdk` (`src/memdb/stash.rs:99-101`). -/
def SdkSyncState.get_sdk (st : SdkSyncState) (filename : String) : Option RemoteSdk :=
  st.sdks.lookup filename

/-- `SdkSyncState::update_sdk` (`src/memdb/stash.rs:103-105`): insert keyed
by the SDK's local filename. -/
def SdkSyncState.update_sdk (st : SdkSyncState) (sdk : RemoteSdk) : SdkSyncState :=
  { st with sdks := mapInsert st.sdks sdk.local_filename sdk }

/-- `fetch_remote_state` (`src/memdb/stash.rs:208-214`): key every listed
SDK by its local filename; `revision = None`. -/
def fetch_remote_state (listing : List RemoteSdk) : SdkSyncState :=
  { sdks := listing.foldl (fun m sdk => mapInsert m sdk.local_filename sdk) []
    revision := none }

/-- The observable effects of one `sync` run. -/
structure SyncEffects where
  added : Nat
  replaced : Nat
  removed : Nat
  saves : List SdkSyncState
  final : SdkSyncState
  deriving Repr

/-- Accumulator of the per-remote-SDK loop of `sync`
(`src/memdb/stash.rs:310-333`). -/
structure SyncLoopAcc where
  local_state : SdkSyncState
  to_delete : List String
  added : Nat
  replaced : Nat
  saves : List SdkSyncState
  deriving Repr

/-- One iteration of the loop: download when the SDK is missing
(`changed_something` via the `else` branch) or differs (`local_sdk != sdk`),
update the state, bump the revision and persist
(`src/memdb/stash.rs:310-333`). -/
def syncLoopStep (acc : SyncLoopAcc) (sdk : RemoteSdk) : SyncLoopAcc :=
  let hit := acc.local_state.get_sdk sdk.local_filename
  let changed_something : Bool := match hit with
    | some local_sdk => local_sdk != sdk
    | none => true
  let acc := { acc with to_delete := acc.to_delete.erase sdk.local_filename }
  if changed_something then
    let st := acc.local_state.update_sdk sdk
    let st := { st with revision := some (st.revision.getD 0 + 1) }
    { acc with
      local_state := st
      added := acc.added + (if hit.isNone then 1 else 0)
      replaced := acc.replaced + (if hit.isSome then 1 else 0)
      saves := acc.saves ++ [st] }
  else
    acc

/-- `MemDbStash::sync` (`src/memdb/stash.rs:301-354`): reconcile the local
state with the upstream listing.  `to_delete` starts as the set of local
keys; every remote SDK removes its key and is downloaded when missing or
different (bumping and persisting per change); leftovers are deleted from
disk and evicted from the cache (no state change, no revision bump); finally
the remote map itself is persisted with `revision = local.revision + 1`
unconditionally (`src/memdb/stash.rs:349-351`). -/
def MemDbStash.sync (loc : SdkSyncState) (listing : List RemoteSdk) : SyncEffects :=
  let remote_state := fetch_remote_state listing
  let acc0 : SyncLoopAcc :=
    { local_state := loc
      to_delete := loc.sdks.map Prod.fst
      added := 0
      replaced := 0
      saves := [] }
  let acc := (remote_state.sdks.map Prod.snd).foldl syncLoopStep acc0
  let removed := (acc.to_delete.filter
    (fun lf => (acc.local_state.get_sdk lf).isSome)).length
  let final := { remote_state with
    revision := some (acc.local_state.revision.getD 0 + 1) }
  { added := acc.added
    replaced := acc.replaced
    removed := removed
    saves := acc.saves ++ [final]
    final := final }

end SymbolServer

/-! ## SDK filename codec, from `src/sdk.rs`

`SdkInfo::from_path` (`src/sdk.rs:104-145`) matches the filename against
`MEMDB_FILENAME_RE = ^([^-]+)_(\d+)\.(\d+)(?:\.(\d+))?_([a-zA-Z0-9]+)(?:\.memdb)?$`.
The regex is embedded as a function: group 1 is greedy with backtracking
(longest prefix without `'-'` followed by `'_'` whose remainder matches
first), and the remainder of the pattern is deterministic because the digit
runs, the alphanumeric run and their delimiters draw from disjoint
alphabets.  `\d`/`[a-zA-Z0-9]` are taken as ASCII (the formatter only emits
ASCII).  A parsed `\d+` capture goes through `str::parse::<u32>`, which
fails above `u32::MAX`. -/

namespace SymbolServer

/-- Numeric value of a run of decimal digits (how `str::parse` reads the
digits a `\d+` capture can contain). -/
def digitsToNat (l : List Char) : Nat :=
  l.foldl (fun acc c => acc * 10 + (c.toNat - 48)) 0

/-- `str::parse::<u32>` on a digit run: its value if below `2^32`. -/
def parseU32 (l : List Char) : Option Nat :=
  if l.isEmpty then none
  else if digitsToNat l < 2 ^ 32 then some (digitsToNat l) else none

/-- `(\d+)\.(\d+)(?:\.(\d+))?_([a-zA-Z0-9]+)(?:\.memdb)?$` applied after
group 1 and its `'_'`; returns (major, minor, patch, build).  A missing
patch group parses as `"0"` (`src/sdk.rs:131,142`). -/
def matchVersionTail (t : List Char) : Option (Nat × Nat × Nat × String) :=
  let d1 := t.takeWhile Char.isDigit
  let r1 := t.dropWhile Char.isDigit
  if d1.isEmpty then none
  else
    match r1 with
    | '.' :: r2 =>
      let d2 := r2.takeWhile Char.isDigit
      let r3 := r2.dropWhile Char.isDigit
      if d2.isEmpty then none
      else
        let finish := fun (patch : List Char) (r : List Char) =>
          let bld := r.takeWhile Char.isAlphanum
          let r7 := r.dropWhile Char.isAlphanum
          if bld.isEmpty then none
          else if r7 = [] ∨ r7 = ".memdb".toList then
            match parseU32 d1, parseU32 d2, parseU32 patch with
            | some major, some minor, some pat =>
              some (major, minor, pat, String.mk bld)
            | _, _, _ => none
          else none
        match r3 with
        | '.' :: r4 =>
          let d3 := r4.takeWhile Char.isDigit
          let r5 := r4.dropWhile Char.isDigit
          if d3.isEmpty then none
          else
            (match r5 with
             | '_' :: r6 => finish d3 r6
             | _ => none)
        | '_' :: r4 => finish ['0'] r4
        | _ => none
    | _ => none

/-- The `MEMDB_FILENAME_RE` branch of `SdkInfo::from_path`
(`src/sdk.rs:104-134`) on a bare filename (the live stash calls this as
`SdkInfo::from_filename`, `src/memdb/stash.rs:388,400`): group 1 `[^-]+` is
greedy, so the candidate splits at `'_'` are tried longest-first; on a bare
filename the fallback DeviceSupport-folder branch never matches (it needs a
parent folder), so a failed regex yields `None`. -/
def SdkInfo.from_filename (filename : String) : Option SdkInfo :=
  let s := filename.toList
  (List.range s.length).reverse.findSome? fun i =>
    if s[i]? = some '_' ∧ 0 < i ∧ (s.take i).all (fun c => c ≠ '-') then
      (matchVersionTail (s.drop (i + 1))).map fun r =>
        { name := String.mk (s.take i)
          version_major := r.1
          version_minor := r.2.1
          version_patchlevel := r.2.2.1
          build := r.2.2.2 }
    else
      none

/-- Decimal rendering of a `u32` (Rust `Display`), by fuel recursion so that
it evaluates. -/
def natToDecAux : Nat → Nat → List Char
  | 0, _ => []
  | fuel + 1, n =>
    if n < 10 then [Char.ofNat (48 + n)]
    else natToDecAux fuel (n / 10) ++ [Char.ofNat (48 + n % 10)]

/-- Decimal rendering of a natural number. -/
def natToDec (n : Nat) : List Char := natToDecAux (n + 1) n

/-- `Sdk::memdb_filename` (`src/sdk.rs:329-336`):
`format!("{}_{}.{}.{}_{}.memdb", name, major, minor, patch, build)`. -/
def SdkInfo.memdb_filename (info : SdkInfo) : String :=
  info.name ++ "_" ++ String.mk (natToDec info.version_major) ++ "."
    ++ String.mk (natToDec info.version_minor) ++ "."
    ++ String.mk (natToDec info.version_patchlevel) ++ "_"
    ++ info.build ++ ".memdb"

/-- A concrete well-formed variant used to instantiate the round-trip. -/
def wObjA : ObjVariant :=
  { uuid := 7, arch := "arm64", src := "obj", vmaddr := 4096, vmsize := 4096
    syms := [(4112, "main"), (4128, "aux")] }

/-- A concrete well-formed variant used to instantiate the sentinel bound. -/
def wObjB : ObjVariant :=
  { uuid := 9, arch := "x86_64", src := "app", vmaddr := 4096, vmsize := 8192
    syms := [(4352, "start")] }

/-- A concrete well-formed file used to instantiate the lookup boundary. -/
def dbBoundary : MemDbFile :=
  { version := 2
    variants := [[IndexItem.new 256 0 0, IndexItem.new 512 0 1]]
    uuids := [IndexedUuid.new 5 0]
    tagged_object_mapping := [("o:arm64", 5)]
    object_names := ["o"]
    symbols := ["s0", "s1"] }

end SymbolServer

/-! # Theorems

Generic lemmas first (lists, the binary search), then one theorem per
claim, each preceded by a doc comment naming the claim. -/

namespace SymbolServer

/-- Elements appended on the right do not disturb `getElem?` hits. -/
theorem getElem?_append_of_some {α : Type} {l t : List α} {i : Nat} {x : α}
    (h : l[i]? = some x) : (l ++ t)[i]? = some x := by
  have hi : i < l.length := by
    by_contra hc
    rw [List.getElem?_eq_none (by omega)] at h
    exact Option.noConfusion h
  rw [List.getElem?_append, if_pos hi]
  exact h

/-- The invariant of the `while low < high` loop of `binsearch_by_key`
(`src/utils.rs:305-316`): on a slice whose keys are monotone, the loop
narrows to the split point between keys `≤ item` and keys `> item`. -/
theorem binsearchLoop_spec {α : Type} (f : α → Nat) (l : List α) (q : Nat)
    (hmono : ∀ (i j : Nat) (hi : i < l.length) (hj : j < l.length), i ≤ j →
      f (l.get ⟨i, hi⟩) ≤ f (l.get ⟨j, hj⟩)) :
    ∀ (fuel low high : Nat), low ≤ high → high ≤ l.length → high - low ≤ fuel →
      (∀ (i : Nat) (hi : i < l.length), i < low → f (l.get ⟨i, hi⟩) ≤ q) →
      (∀ (i : Nat) (hi : i < l.length), high ≤ i → q < f (l.get ⟨i, hi⟩)) →
      low ≤ binsearchLoop f l q fuel low high ∧
      binsearchLoop f l q fuel low high ≤ high ∧
      (∀ (i : Nat) (hi : i < l.length), i < binsearchLoop f l q fuel low high →
        f (l.get ⟨i, hi⟩) ≤ q) ∧
      (∀ (i : Nat) (hi : i < l.length), binsearchLoop f l q fuel low high ≤ i →
        q < f (l.get ⟨i, hi⟩)) := by
  intro fuel
  induction fuel with
  | zero =>
    intro low high h1 h2 h3 h4 h5
    have heq : low = high := by omega
    refine ⟨le_refl _, ?_, ?_, ?_⟩
    · simp [binsearchLoop, heq]
    · intro i hi hlt
      exact h4 i hi (by simpa [binsearchLoop] using hlt)
    · intro i hi hge
      exact h5 i hi (by simp [binsearchLoop, heq] at hge; omega)
  | succ n ih =>
    intro low high h1 h2 h3 h4 h5
    by_cases hlh : low < high
    · have hmidlt : (low + high) / 2 < high := by omega
      have hmidlen : (low + high) / 2 < l.length := lt_of_lt_of_le hmidlt h2
      have hget : l[(low + high) / 2]? = some (l.get ⟨(low + high) / 2, hmidlen⟩) :=
        List.getElem?_eq_getElem hmidlen
      have hunfold : binsearchLoop f l q (n + 1) low high =
          if q < f (l.get ⟨(low + high) / 2, hmidlen⟩) then
            binsearchLoop f l q n low ((low + high) / 2)
          else
            binsearchLoop f l q n ((low + high) / 2 + 1) high := by
        rw [binsearchLoop, if_pos hlh]
        simp only [hget]
      by_cases hcmp : q < f (l.get ⟨(low + high) / 2, hmidlen⟩)
      · rw [hunfold, if_pos hcmp]
        refine (ih low ((low + high) / 2) (by omega) (by omega) (by omega) h4 ?_).imp
          id (fun h => ⟨le_trans h.1 (by omega), h.2⟩)
        intro i hi hge
        exact lt_of_lt_of_le hcmp (hmono _ i hmidlen hi hge)
      · rw [hunfold, if_neg hcmp]
        push_neg at hcmp
        refine (ih ((low + high) / 2 + 1) high (by omega) h2 (by omega) ?_ h5).imp
          (fun h => le_trans (by omega) h) id
        intro i hi hlt
        exact le_trans (hmono i _ hi hmidlen (by omega)) hcmp
    · have heq : low = high := by omega
      have hunfold : binsearchLoop f l q (n + 1) low high = low := by
        rw [binsearchLoop, if_neg hlh]
      refine ⟨by omega, by omega, ?_, ?_⟩
      · intro i hi hlt
        rw [hunfold] at hlt
        exact h4 i hi hlt
      · intro i hi hge
        rw [hunfold] at hge
        exact h5 i hi (by omega)

/-- Characterisation of `binsearch_by_key` on a key-monotone slice: there is
a split point `r` with keys `≤ item` strictly below it and keys `> item`
from it on, and the result is `slice[r-1]` when `r > 0`, else `None`. -/
theorem binsearch_by_key_spec {α : Type} (l : List α) (q : Nat) (f : α → Nat)
    (hmono : ∀ (i j : Nat) (hi : i < l.length) (hj : j < l.length), i ≤ j →
      f (l.get ⟨i, hi⟩) ≤ f (l.get ⟨j, hj⟩)) :
    ∃ r, r ≤ l.length ∧
      (∀ (i : Nat) (hi : i < l.length), i < r → f (l.get ⟨i, hi⟩) ≤ q) ∧
      (∀ (i : Nat) (hi : i < l.length), r ≤ i → q < f (l.get ⟨i, hi⟩)) ∧
      binsearch_by_key l q f = if 0 < r then l[r - 1]? else none := by
  obtain ⟨ha, hb, hc, hd⟩ := binsearchLoop_spec f l q hmono (l.length + 1) 0 l.length
    (by omega) (le_refl _) (by omega)
    (fun i hi h => absurd h (by omega))
    (fun i hi h => absurd hi (by omega))
  refine ⟨binsearchLoop f l q (l.length + 1) 0 l.length, hb, hc, hd, ?_⟩
  rw [binsearch_by_key]
  by_cases hr : 0 < binsearchLoop f l q (l.length + 1) 0 l.length
  · rw [if_pos ⟨hr, hb⟩, if_pos hr]
  · rw [if_neg (by omega), if_neg hr]

/-- Monotone keys from strictly sorted keys. -/
theorem mono_of_strict_sorted {α : Type} {f : α → Nat} {l : List α}
    (hs : l.Pairwise (fun a b => f a < f b)) :
    ∀ (i j : Nat) (hi : i < l.length) (hj : j < l.length), i ≤ j →
      f (l.get ⟨i, hi⟩) ≤ f (l.get ⟨j, hj⟩) := by
  intro i j hi hj hij
  rcases Nat.lt_or_ge i j with h | h
  · exact le_of_lt (List.pairwise_iff_getElem.1 hs i j hi hj h)
  · have : i = j := by omega
    subst this
    exact le_refl _

/-- On a strictly key-sorted slice, a present key is found exactly. -/
theorem binsearch_by_key_of_mem {α : Type} {l : List α} {q : Nat} {f : α → Nat}
    (hs : l.Pairwise (fun a b => f a < f b)) {x : α}
    (hx : x ∈ l) (hfx : f x = q) : binsearch_by_key l q f = some x := by
  obtain ⟨r, hr, hlo, hhi, heq⟩ := binsearch_by_key_spec l q f (mono_of_strict_sorted hs)
  obtain ⟨k, hklen, hkx⟩ := List.getElem_of_mem hx
  have hkr : k < r := by
    by_contra hc
    have h := hhi k hklen (by omega)
    simp only [List.get_eq_getElem, hkx, hfx] at h
    omega
  have hr0 : 0 < r := by omega
  have hr1 : r - 1 < l.length := by omega
  have hkeq : k = r - 1 := by
    by_contra hc
    have hklt : k < r - 1 := by omega
    have hstrict := List.pairwise_iff_getElem.1 hs k (r - 1) hklen hr1 hklt
    have hle := hlo (r - 1) hr1 (by omega)
    simp only [List.get_eq_getElem] at hle
    rw [hkx, hfx] at hstrict
    omega
  rw [heq, if_pos hr0, List.getElem?_eq_getElem hr1]
  subst hkeq
  exact congrArg some hkx

/-- When every key exceeds the probe, the search misses. -/
theorem binsearch_by_key_none {α : Type} {l : List α} {q : Nat} {f : α → Nat}
    (hmono : ∀ (i j : Nat) (hi : i < l.length) (hj : j < l.length), i ≤ j →
      f (l.get ⟨i, hi⟩) ≤ f (l.get ⟨j, hj⟩))
    (h : ∀ y ∈ l, q < f y) : binsearch_by_key l q f = none := by
  obtain ⟨r, hr, hlo, hhi, heq⟩ := binsearch_by_key_spec l q f hmono
  have hr0 : r = 0 := by
    by_contra hc
    have hr1 : r - 1 < l.length := by omega
    have := hlo (r - 1) hr1 (by omega)
    have := h (l.get ⟨r - 1, hr1⟩) (List.get_mem l (r - 1) hr1)
    omega
  rw [heq, if_neg (by omega)]

/-- When every key is `≤` the probe and the slice is nonempty, the search
returns the last element. -/
theorem binsearch_by_key_last {α : Type} {l : List α} {q : Nat} {f : α → Nat}
    (hmono : ∀ (i j : Nat) (hi : i < l.length) (hj : j < l.length), i ≤ j →
      f (l.get ⟨i, hi⟩) ≤ f (l.get ⟨j, hj⟩))
    (hne : l ≠ []) (h : ∀ y ∈ l, f y ≤ q) :
    binsearch_by_key l q f = l.getLast? := by
  obtain ⟨r, hr, hlo, hhi, heq⟩ := binsearch_by_key_spec l q f hmono
  have hlen : 0 < l.length := List.length_pos.2 hne
  have hrlen : r = l.length := by
    by_contra hc
    have hrl : r < l.length := by omega
    have := hhi r hrl (le_refl _)
    have := h (l.get ⟨r, hrl⟩) (List.get_mem l r hrl)
    omega
  rw [heq, if_pos (by omega), List.getLast?_eq_getElem?, hrlen]

end SymbolServer

namespace SymbolServer

/-- The two byte values read by `readU32` agree on a long-enough prefix. -/
theorem readU32_take {buffer : List Nat} {n : Nat} (h : 4 ≤ n) :
    readU32 (buffer.take n) 0 = readU32 buffer 0 := by
  unfold readU32
  rw [List.getElem?_take, List.getElem?_take, List.getElem?_take, List.getElem?_take]
  simp only [if_pos (by omega : (0:Nat) < n), if_pos (by omega : (1:Nat) < n),
    if_pos (by omega : (2:Nat) < n), if_pos (by omega : (3:Nat) < n)]

/-- `get_data` errors exactly when the wrapped end crosses `start` or the
buffer end. -/
theorem get_data_err_iff (buf : List Nat) (start ln : Nat)
    (hs : start < 2 ^ 64) (hl : ln < 2 ^ 64) :
    (get_data buf start ln = .error .badMemDb) ↔
      2 ^ 64 ≤ start + ln ∨ buf.length < start + ln := by
  have hcond : ((start + ln) % 2 ^ 64 < start ∨ (start + ln) % 2 ^ 64 > buf.length) ↔
      (2 ^ 64 ≤ start + ln ∨ buf.length < start + ln) := by
    omega
  simp only [get_data]
  split_ifs with h
  · exact iff_of_true rfl (hcond.1 h)
  · exact iff_of_false (by simp) (fun hr => h (hcond.2 hr))

/-- `get_data` succeeds with exactly the requested window when it is in
bounds. -/
theorem get_data_ok (buf : List Nat) (start ln : Nat)
    (h64 : start + ln < 2 ^ 64) (hin : start + ln ≤ buf.length) :
    get_data buf start ln = .ok ((buf.drop start).take ln) := by
  have he : (start + ln) % 2 ^ 64 = start + ln := Nat.mod_eq_of_lt h64
  simp only [get_data]
  rw [if_neg (by omega)]
  rw [he, Nat.add_sub_cancel_left]

/-- **C5.** Every `(offset, length)` buffer access of the reader returns
`BadMemDb` — without panicking or reading out of bounds — exactly when
`offset + length` wraps around `usize` or exceeds the buffer length; within
bounds it returns exactly the requested window; any buffer shorter than
`offset + length` (in particular one truncated a byte before the region's
end) surfaces the access as `BadMemDb`; and `get_slice` inherits the same
discipline through `offset + count * size`. -/
theorem get_data_bounds_safety (buffer : List Nat) (start len : Nat)
    (hs : start < 2 ^ 64) (hl : len < 2 ^ 64) :
    ((get_data buffer start len = .error .badMemDb) ↔
      2 ^ 64 ≤ start + len ∨ buffer.length < start + len) ∧
    (start + len < 2 ^ 64 → start + len ≤ buffer.length →
      get_data buffer start len = .ok ((buffer.drop start).take len)) ∧
    (∀ cut : List Nat, cut.length < start + len →
      get_data cut start len = .error .badMemDb) ∧
    (0 < len → start + len ≤ buffer.length →
      get_data (buffer.take (start + len - 1)) start len = .error .badMemDb) ∧
    (∀ sz count : Nat, count * sz < 2 ^ 64 →
      ((get_slice buffer sz start count = .error .badMemDb) ↔
        2 ^ 64 ≤ start + count * sz ∨ buffer.length < start + count * sz)) := by
  refine ⟨get_data_err_iff buffer start len hs hl, get_data_ok buffer start len, ?_, ?_, ?_⟩
  · intro cut hcut
    exact (get_data_err_iff cut start len hs hl).2 (Or.inr hcut)
  · intro hpos hin
    apply (get_data_err_iff _ start len hs hl).2
    right
    rw [List.length_take]
    omega
  · intro sz count hsz
    unfold get_slice
    rw [Nat.mod_eq_of_lt hsz]
    exact get_data_err_iff buffer start (count * sz) hs hsz

/-- Witness for C5 on a concrete 4-byte buffer: reading 2 bytes at offset 2
succeeds, reading 3 bytes at offset 2 is `BadMemDb`, and truncating the
buffer by one byte turns the successful read into `BadMemDb`. -/
theorem get_data_bounds_safety_witness :
    get_data [1, 2, 3, 4] 2 3 = .error .badMemDb ∧
    get_data [1, 2, 3, 4] 2 2 = .ok [3, 4] ∧
    get_data ([1, 2, 3, 4].take 3) 2 2 = .error .badMemDb := by
  refine ⟨?_, ?_, ?_⟩
  · exact (get_data_bounds_safety [1, 2, 3, 4] 2 3 (by norm_num) (by norm_num)).1.2
      (Or.inr (by norm_num))
  · exact (get_data_bounds_safety [1, 2, 3, 4] 2 2 (by norm_num) (by norm_num)).2.1
      (by norm_num) (by norm_num)
  · exact (get_data_bounds_safety [1, 2, 3, 4] 2 2 (by norm_num) (by norm_num)).2.2.2.1
      (by norm_num) (by norm_num)

/-- `headerVersion` on a buffer that holds a full header. -/
theorem headerVersion_ok {buffer : List Nat} (h : memDbHeaderSize ≤ buffer.length) :
    headerVersion buffer = .ok (readU32 buffer 0) := by
  unfold headerVersion
  rw [get_data_ok buffer 0 memDbHeaderSize (by norm_num [memDbHeaderSize]) (by omega)]
  show Except.ok (readU32 ((buffer.drop 0).take memDbHeaderSize) 0) = _
  rw [List.drop_zero, readU32_take (by norm_num [memDbHeaderSize])]

/-- `headerVersion` on a buffer too short for the header. -/
theorem headerVersion_err {buffer : List Nat} (h : buffer.length < memDbHeaderSize) :
    headerVersion buffer = .error .badMemDb := by
  unfold headerVersion
  rw [(get_data_err_iff buffer 0 memDbHeaderSize (by norm_num)
    (by norm_num [memDbHeaderSize])).2 (Or.inr (by omega))]
  rfl

end SymbolServer

namespace SymbolServer

/-- **C2.** Opening a MemDB (from a slice, owned buffer, or mapped file —
all go through `verify_version` on the backing buffer) succeeds exactly when
the buffer holds a full header whose `version` field equals the canonical
supported version; a full header with any other version is rejected with
`UnsupportedMemDbVersion`; the supported version is 2, which is precisely
the version the writer's `flush` stores in the header. -/
theorem memdb_version_gate :
    (∀ buffer : List Nat,
      ((∃ db, MemDb.from_slice buffer = .ok db) ↔
        memDbHeaderSize ≤ buffer.length ∧ readU32 buffer 0 = memDbSupportedVersion)) ∧
    (∀ buffer : List Nat, memDbHeaderSize ≤ buffer.length →
      readU32 buffer 0 ≠ memDbSupportedVersion →
      MemDb.from_slice buffer = .error .unsupportedMemDbVersion) ∧
    memDbSupportedVersion = 2 ∧
    (∀ b : MemDbBuilder, b.flush.version = memDbSupportedVersion) := by
  have hrun : ∀ buffer : List Nat, memDbHeaderSize ≤ buffer.length →
      MemDb.from_slice buffer =
        (if readU32 buffer 0 ≠ memDbSupportedVersion then
          .error .unsupportedMemDbVersion
        else .ok buffer) := by
    intro buffer h
    unfold MemDb.from_slice verify_version
    rw [headerVersion_ok h]
    split_ifs with hv
    · show (if readU32 buffer 0 ≠ memDbSupportedVersion then _ else _ : Except MemDbError Unit).bind _ = _
      rw [if_pos hv]
      rfl
    · show (if readU32 buffer 0 ≠ memDbSupportedVersion then _ else _ : Except MemDbError Unit).bind _ = _
      rw [if_neg hv]
      rfl
  have hshort : ∀ buffer : List Nat, buffer.length < memDbHeaderSize →
      MemDb.from_slice buffer = .error .badMemDb := by
    intro buffer h
    unfold MemDb.from_slice verify_version
    rw [headerVersion_err h]
    rfl
  refine ⟨?_, ?_, rfl, fun b => rfl⟩
  · intro buffer
    constructor
    · rintro ⟨db, hdb⟩
      by_cases hlen : memDbHeaderSize ≤ buffer.length
      · refine ⟨hlen, ?_⟩
        by_contra hv
        rw [hrun buffer hlen, if_pos hv] at hdb
        exact Except.noConfusion hdb
      · rw [hshort buffer (by omega)] at hdb
        exact Except.noConfusion hdb
    · rintro ⟨hlen, hv⟩
      refine ⟨buffer, ?_⟩
      rw [hrun buffer hlen, if_neg (by simp [hv])]
  · intro buffer hlen hv
    rw [hrun buffer hlen, if_pos hv]

/-- Witness for C2: a 68-byte header whose version field is 2 opens, one
whose version field is 3 is rejected as `UnsupportedMemDbVersion`, and a
buffer shorter than the header cannot open. -/
theorem memdb_version_gate_witness :
    (∃ db, MemDb.from_slice (2 :: List.replicate 67 0) = .ok db) ∧
    MemDb.from_slice (3 :: List.replicate 67 0) = .error .unsupportedMemDbVersion ∧
    ¬ (∃ db, MemDb.from_slice [2, 0, 0, 0] = .ok db) := by
  refine ⟨?_, ?_, ?_⟩
  · exact (memdb_version_gate.1 (2 :: List.replicate 67 0)).2 (by decide)
  · exact memdb_version_gate.2.1 (3 :: List.replicate 67 0) (by decide) (by decide)
  · intro hib
    have := (memdb_version_gate.1 [2, 0, 0, 0]).1 hib
    simp [memDbHeaderSize] at this

end SymbolServer

namespace SymbolServer

/-- **C10.** For every 64-bit address `addr` and ids `src`, `sym`,
`(IndexItem.new addr src sym).addr = addr % 2^48`; the round-trip
`(IndexItem.new addr src sym).addr = addr` holds exactly when `addr < 2^48`.
Bits at position 48 and above are discarded silently at construction, with
no assertion or error. -/
theorem indexItem_addr_truncates_to_48_bits
    (addr src sym : Nat) (_h64 : addr < 2 ^ 64) :
    (IndexItem.new addr src sym).addr = addr % 2 ^ 48 ∧
    ((IndexItem.new addr src sym).addr = addr ↔ addr < 2 ^ 48) := by
  have hmain : (IndexItem.new addr src sym).addr = addr % 2 ^ 48 := by
    have h48 : (2 : Nat) ^ 48 = 2 ^ 32 * 2 ^ 16 := by norm_num
    rw [IndexItem.new, IndexItem.addr, h48, Nat.mod_mul]
    ring
  refine ⟨hmain, ?_⟩
  rw [hmain]
  constructor
  · intro hmod
    by_contra hlt
    push_neg at hlt
    have := Nat.mod_lt addr (show 0 < 2 ^ 48 by norm_num)
    omega
  · intro hlt
    exact Nat.mod_eq_of_lt hlt

/-- Witness for C10 at a concrete input: `addr = 2^48 + 5` truncates to `5`. -/
theorem indexItem_addr_truncates_to_48_bits_witness :
    (IndexItem.new (2 ^ 48 + 5) 3 7).addr = (2 ^ 48 + 5) % 2 ^ 48 ∧
    ((IndexItem.new (2 ^ 48 + 5) 3 7).addr = 2 ^ 48 + 5 ↔ 2 ^ 48 + 5 < 2 ^ 48) :=
  indexItem_addr_truncates_to_48_bits (2 ^ 48 + 5) 3 7 (by norm_num)

end SymbolServer

namespace SymbolServer

/-- Entries produced by `mapInsert` keep the key equal to the value's local
filename, and the key list stays duplicate-free. -/
theorem mapInsert_wf (m : List (String × RemoteSdk)) (v : RemoteSdk)
    (hform : ∀ p ∈ m, p.2.local_filename = p.1)
    (hnd : (m.map Prod.fst).Nodup) :
    (∀ p ∈ mapInsert m v.local_filename v, p.2.local_filename = p.1) ∧
    ((mapInsert m v.local_filename v).map Prod.fst).Nodup := by
  unfold mapInsert
  split_ifs with hany
  · constructor
    · intro p hp
      obtain ⟨p0, hp0, hp0e⟩ := List.mem_map.1 hp
      by_cases he : p0.1 = v.local_filename
      · rw [if_pos he] at hp0e
        subst hp0e
        rfl
      · rw [if_neg he] at hp0e
        subst hp0e
        exact hform p0 hp0
    · have hkeys : (m.map (fun p => if p.1 = v.local_filename then
          (v.local_filename, v) else p)).map Prod.fst = m.map Prod.fst := by
        rw [List.map_map]
        apply List.map_congr_left
        intro p _
        by_cases he : p.1 = v.local_filename
        · simp [he]
        · simp [he]
      rw [hkeys]
      exact hnd
  · constructor
    · intro p hp
      rcases List.mem_append.1 hp with h | h
      · exact hform p h
      · simp only [List.mem_singleton] at h
        subst h
        rfl
    · rw [List.map_append]
      refine List.Nodup.append hnd (by simp) ?_
      intro a ha hb
      simp only [List.map_cons, List.map_nil, List.mem_singleton] at hb
      subst hb
      obtain ⟨p, hp, hpe⟩ := List.mem_map.1 ha
      rw [List.any_eq_true] at hany
      exact hany ⟨p, hp, by simp [hpe]⟩

/-- The remote map built by `fetch_remote_state` is well-formed. -/
theorem fetch_remote_state_wf (listing : List RemoteSdk) :
    (∀ p ∈ (fetch_remote_state listing).sdks, p.2.local_filename = p.1) ∧
    ((fetch_remote_state listing).sdks.map Prod.fst).Nodup := by
  unfold fetch_remote_state
  suffices h : ∀ (m : List (String × RemoteSdk)),
      (∀ p ∈ m, p.2.local_filename = p.1) → (m.map Prod.fst).Nodup →
      (∀ p ∈ listing.foldl (fun m sdk => mapInsert m sdk.local_filename sdk) m,
        p.2.local_filename = p.1) ∧
      ((listing.foldl (fun m sdk => mapInsert m sdk.local_filename sdk) m).map
        Prod.fst).Nodup by
    exact h [] (by simp) (by simp)
  induction listing with
  | nil => intro m h1 h2; exact ⟨h1, h2⟩
  | cons v t ih =>
    intro m h1 h2
    obtain ⟨h1', h2'⟩ := mapInsert_wf m v h1 h2
    exact ih (mapInsert m v.local_filename v) h1' h2'

/-- On a map with duplicate-free keys, `lookup` finds a member entry. -/
theorem lookup_of_mem_nodup {m : List (String × RemoteSdk)} {k : String}
    {v : RemoteSdk} (hmem : (k, v) ∈ m) (hnd : (m.map Prod.fst).Nodup) :
    m.lookup k = some v := by
  induction m with
  | nil => exact absurd hmem (List.not_mem_nil _)
  | cons p t ih =>
    rw [List.map_cons, List.nodup_cons] at hnd
    rcases List.mem_cons.1 hmem with h | h
    · subst h
      simp [List.lookup]
    · have hk : k ≠ p.1 := by
        intro he
        exact hnd.1 (he ▸ List.mem_map.2 ⟨(k, v), h, rfl⟩)
      rw [show p = (p.1, p.2) from rfl, List.lookup_cons]
      rw [show (k == p.1) = false from beq_eq_false_iff_ne.2 hk]
      exact ih h hnd.2

/-- A remote SDK already recorded verbatim in the local state flows through
`syncLoopStep` without a download, state change, bump or save; only its
key is removed from `to_delete`. -/
theorem syncLoopStep_unchanged (acc : SyncLoopAcc) (v : RemoteSdk)
    (hhit : acc.local_state.get_sdk v.local_filename = some v) :
    syncLoopStep acc v =
      { acc with to_delete := acc.to_delete.erase v.local_filename } := by
  unfold syncLoopStep
  rw [hhit]
  simp

/-- The per-remote-SDK loop of `sync` is a no-op (apart from `to_delete`
bookkeeping) when every remote SDK is already recorded verbatim. -/
theorem syncLoop_unchanged (m : List (String × RemoteSdk)) :
    ∀ (acc : SyncLoopAcc),
      (∀ p ∈ m, acc.local_state.get_sdk p.2.local_filename = some p.2) →
      (m.map Prod.snd).foldl syncLoopStep acc =
        { acc with to_delete :=
            m.foldl (fun td p => td.erase p.2.local_filename) acc.to_delete } := by
  induction m with
  | nil => intro acc _; rfl
  | cons p t ih =>
    intro acc hall
    rw [List.map_cons, List.foldl_cons, List.foldl_cons]
    rw [syncLoopStep_unchanged acc p.2 (hall p (List.mem_cons_self p t))]
    exact ih _ (fun q hq => hall q (List.mem_cons_of_mem p hq))

/-- Erasing each entry's key from the key list empties it. -/
theorem erase_all_keys (m : List (String × RemoteSdk))
    (hform : ∀ p ∈ m, p.2.local_filename = p.1) :
    m.foldl (fun td p => td.erase p.2.local_filename) (m.map Prod.fst) = [] := by
  induction m with
  | nil => rfl
  | cons p t ih =>
    rw [List.map_cons, List.foldl_cons]
    rw [hform p (List.mem_cons_self p t), List.erase_cons_head]
    exact ih (fun q hq => hform q (List.mem_cons_of_mem p hq))

/-- Revision accounting of the per-remote-SDK loop: the loop adds exactly
one revision bump per download it performs, and the counters only grow. -/
theorem syncLoop_revision (vs : List RemoteSdk) :
    ∀ (acc : SyncLoopAcc),
      (vs.foldl syncLoopStep acc).local_state.revision.getD 0 + acc.added + acc.replaced =
        acc.local_state.revision.getD 0 + (vs.foldl syncLoopStep acc).added +
          (vs.foldl syncLoopStep acc).replaced ∧
      acc.added ≤ (vs.foldl syncLoopStep acc).added ∧
      acc.replaced ≤ (vs.foldl syncLoopStep acc).replaced := by
  induction vs with
  | nil => intro acc; exact ⟨rfl, le_refl _, le_refl _⟩
  | cons v t ih =>
    intro acc
    rw [List.foldl_cons]
    have hstep : (syncLoopStep acc v).local_state.revision.getD 0 +
          acc.added + acc.replaced =
        acc.local_state.revision.getD 0 + (syncLoopStep acc v).added +
          (syncLoopStep acc v).replaced ∧
        acc.added ≤ (syncLoopStep acc v).added ∧
        acc.replaced ≤ (syncLoopStep acc v).replaced := by
      unfold syncLoopStep
      rcases hh : acc.local_state.get_sdk v.local_filename with _ | w
      · simp [SdkSyncState.update_sdk]
        omega
      · by_cases hne : w = v
        · subst hne
          simp
        · simp [hne, SdkSyncState.update_sdk]
          omega
    obtain ⟨h1, h2, h3⟩ := hstep
    obtain ⟨h4, h5, h6⟩ := ih (syncLoopStep acc v)
    exact ⟨by omega, by omega, by omega⟩

end SymbolServer

namespace SymbolServer

/-- Counterexample to **C6** as stated: with an unchanged (here: empty)
upstream, the second `sync` performs no downloads, replacements or
deletions, yet the persisted state is not bit-identical and the revision is
not unchanged — the final save of every `sync` run bumps the revision
unconditionally (`src/memdb/stash.rs:349-351`). -/
theorem sync_idempotence_counterexample :
    (MemDbStash.sync (MemDbStash.sync SdkSyncState.default []).final []).added = 0 ∧
    (MemDbStash.sync (MemDbStash.sync SdkSyncState.default []).final []).replaced = 0 ∧
    (MemDbStash.sync (MemDbStash.sync SdkSyncState.default []).final []).removed = 0 ∧
    (MemDbStash.sync (MemDbStash.sync SdkSyncState.default []).final []).final ≠
      (MemDbStash.sync SdkSyncState.default []).final ∧
    (MemDbStash.sync (MemDbStash.sync SdkSyncState.default []).final []).final.revision ≠
      (MemDbStash.sync SdkSyncState.default []).final.revision := by
  decide

/-- A `sync` whose local state already mirrors the upstream map applies
nothing: no downloads, no replacements, no removals; the only effect is the
final unconditional save with the revision bumped by 1. -/
theorem sync_unchanged_upstream (st : SdkSyncState) (listing : List RemoteSdk)
    (hkeys : st.sdks = (fetch_remote_state listing).sdks) :
    (MemDbStash.sync st listing).added = 0 ∧
    (MemDbStash.sync st listing).replaced = 0 ∧
    (MemDbStash.sync st listing).removed = 0 ∧
    (MemDbStash.sync st listing).final.sdks = (fetch_remote_state listing).sdks ∧
    (MemDbStash.sync st listing).saves = [(MemDbStash.sync st listing).final] ∧
    (MemDbStash.sync st listing).final.revision = some (st.revision.getD 0 + 1) := by
  obtain ⟨hform, hnd⟩ := fetch_remote_state_wf listing
  have hhit : ∀ p ∈ (fetch_remote_state listing).sdks,
      st.get_sdk p.2.local_filename = some p.2 := by
    intro p hp
    show st.sdks.lookup p.2.local_filename = some p.2
    rw [hkeys, hform p hp]
    exact lookup_of_mem_nodup (by simpa using hp) hnd
  have hloop := syncLoop_unchanged (fetch_remote_state listing).sdks
    { local_state := st
      to_delete := st.sdks.map Prod.fst
      added := 0
      replaced := 0
      saves := [] } hhit
  have htd : (fetch_remote_state listing).sdks.foldl
      (fun td p => td.erase p.2.local_filename) (st.sdks.map Prod.fst) = [] := by
    rw [hkeys]
    exact erase_all_keys _ hform
  have hacc : List.foldl syncLoopStep
      ({ local_state := st
         to_delete := st.sdks.map Prod.fst
         added := 0
         replaced := 0
         saves := [] } : SyncLoopAcc)
      ((fetch_remote_state listing).sdks.map Prod.snd) =
      ({ local_state := st
         to_delete := []
         added := 0
         replaced := 0
         saves := [] } : SyncLoopAcc) := by
    rw [hloop]
    simp only
    rw [htd]
  have hadded : (MemDbStash.sync st listing).added =
      (List.foldl syncLoopStep
        ({ local_state := st
           to_delete := st.sdks.map Prod.fst
           added := 0
           replaced := 0
           saves := [] } : SyncLoopAcc)
        ((fetch_remote_state listing).sdks.map Prod.snd)).added := rfl
  have hreplaced : (MemDbStash.sync st listing).replaced =
      (List.foldl syncLoopStep
        ({ local_state := st
           to_delete := st.sdks.map Prod.fst
           added := 0
           replaced := 0
           saves := [] } : SyncLoopAcc)
        ((fetch_remote_state listing).sdks.map Prod.snd)).replaced := rfl
  have hremoved : (MemDbStash.sync st listing).removed =
      ((List.foldl syncLoopStep
        ({ local_state := st
           to_delete := st.sdks.map Prod.fst
           added := 0
           replaced := 0
           saves := [] } : SyncLoopAcc)
        ((fetch_remote_state listing).sdks.map Prod.snd)).to_delete.filter
          (fun lf => (((List.foldl syncLoopStep
            ({ local_state := st
               to_delete := st.sdks.map Prod.fst
               added := 0
               replaced := 0
               saves := [] } : SyncLoopAcc)
            ((fetch_remote_state listing).sdks.map Prod.snd)).local_state.get_sdk
              lf)).isSome)).length := rfl
  have hsaves : (MemDbStash.sync st listing).saves =
      (List.foldl syncLoopStep
        ({ local_state := st
           to_delete := st.sdks.map Prod.fst
           added := 0
           replaced := 0
           saves := [] } : SyncLoopAcc)
        ((fetch_remote_state listing).sdks.map Prod.snd)).saves ++
        [(MemDbStash.sync st listing).final] := rfl
  have hrev : (MemDbStash.sync st listing).final.revision =
      some (((List.foldl syncLoopStep
        ({ local_state := st
           to_delete := st.sdks.map Prod.fst
           added := 0
           replaced := 0
           saves := [] } : SyncLoopAcc)
        ((fetch_remote_state listing).sdks.map Prod.snd)).local_state.revision).getD 0
        + 1) := rfl
  refine ⟨?_, ?_, ?_, rfl, ?_, ?_⟩
  · rw [hadded, hacc]
  · rw [hreplaced, hacc]
  · rw [hremoved, hacc]
    rfl
  · rw [hsaves, hacc]
    rfl
  · rw [hrev, hacc]

/-- **C6 (amended).** If a `sync` completes and the upstream listing is
unchanged, a second `sync` performs no downloads, replacements or removals
and leaves the `sdks` map of the persisted state identical — but its single
unconditional final save rewrites `sync.state` with the revision incremented
by exactly 1, so the persisted bytes and the revision do change. -/
theorem sync_second_run_applies_nothing (loc : SdkSyncState) (listing : List RemoteSdk) :
    (MemDbStash.sync (MemDbStash.sync loc listing).final listing).added = 0 ∧
    (MemDbStash.sync (MemDbStash.sync loc listing).final listing).replaced = 0 ∧
    (MemDbStash.sync (MemDbStash.sync loc listing).final listing).removed = 0 ∧
    (MemDbStash.sync (MemDbStash.sync loc listing).final listing).final.sdks =
      (MemDbStash.sync loc listing).final.sdks ∧
    (MemDbStash.sync (MemDbStash.sync loc listing).final listing).saves =
      [(MemDbStash.sync (MemDbStash.sync loc listing).final listing).final] ∧
    (MemDbStash.sync (MemDbStash.sync loc listing).final listing).final.revision =
      some ((MemDbStash.sync loc listing).final.revision.getD 0 + 1) := by
  obtain ⟨h1, h2, h3, h4, h5, h6⟩ :=
    sync_unchanged_upstream (MemDbStash.sync loc listing).final listing rfl
  exact ⟨h1, h2, h3, h4.trans rfl, h5, h6⟩

/-- Counterexample to **C7** as stated: a `sync` that applies no addition,
replacement or removal still advances the revision from 0 to 1, because the
final save bumps it unconditionally (`src/memdb/stash.rs:349-351`). -/
theorem sync_revision_counterexample :
    (MemDbStash.sync SdkSyncState.default []).added = 0 ∧
    (MemDbStash.sync SdkSyncState.default []).replaced = 0 ∧
    (MemDbStash.sync SdkSyncState.default []).removed = 0 ∧
    (MemDbStash.sync SdkSyncState.default []).final.revision = some 1 ∧
    SdkSyncState.default.revision.getD 0 = 0 := by
  decide

/-- **C7 (amended).** The revision never decreases, and each `sync` run
leaves it at the starting value plus one bump per applied addition or
replacement plus exactly one unconditional bump from the final save;
removals do not bump it. -/
theorem sync_revision_accounting (loc : SdkSyncState) (listing : List RemoteSdk) :
    (MemDbStash.sync loc listing).final.revision =
      some (loc.revision.getD 0 + (MemDbStash.sync loc listing).added +
        (MemDbStash.sync loc listing).replaced + 1) ∧
    loc.revision.getD 0 ≤ ((MemDbStash.sync loc listing).final.revision).getD 0 := by
  obtain ⟨h1, h2, h3⟩ := syncLoop_revision
    ((fetch_remote_state listing).sdks.map Prod.snd)
    { local_state := loc
      to_delete := loc.sdks.map Prod.fst
      added := 0
      replaced := 0
      saves := [] }
  have hadded : (MemDbStash.sync loc listing).added =
      (((fetch_remote_state listing).sdks.map Prod.snd).foldl syncLoopStep
        { local_state := loc
          to_delete := loc.sdks.map Prod.fst
          added := 0
          replaced := 0
          saves := [] }).added := rfl
  have hreplaced : (MemDbStash.sync loc listing).replaced =
      (((fetch_remote_state listing).sdks.map Prod.snd).foldl syncLoopStep
        { local_state := loc
          to_delete := loc.sdks.map Prod.fst
          added := 0
          replaced := 0
          saves := [] }).replaced := rfl
  have hrev : (MemDbStash.sync loc listing).final.revision =
      some (((((fetch_remote_state listing).sdks.map Prod.snd).foldl syncLoopStep
        { local_state := loc
          to_delete := loc.sdks.map Prod.fst
          added := 0
          replaced := 0
          saves := [] }).local_state.revision).getD 0 + 1) := rfl
  simp only at h1 h2 h3
  constructor
  · rw [hrev, hadded, hreplaced]
    congr 1
    omega
  · rw [hrev]
    simp only [Option.getD_some]
    omega

end SymbolServer

namespace SymbolServer

/-- `String.toList` distributes over append (it is `String.data`). -/
theorem toList_append (a b : String) : (a ++ b).toList = a.toList ++ b.toList :=
  String.data_append a b

/-- `digitsToNat` peels its last digit. -/
theorem digitsToNat_append_singleton (l : List Char) (c : Char) :
    digitsToNat (l ++ [c]) = digitsToNat l * 10 + (c.toNat - 48) := by
  unfold digitsToNat
  rw [List.foldl_append]
  rfl

/-- The character of a decimal digit. -/
theorem charOfDigit_spec (d : Nat) (h : d < 10) :
    (Char.ofNat (48 + d)).toNat = 48 + d ∧ (Char.ofNat (48 + d)).isDigit := by
  interval_cases d <;> exact ⟨by decide, by decide⟩

/-- `natToDecAux` with enough fuel renders a nonempty all-digit string whose
value is the input. -/
theorem natToDecAux_spec : ∀ (fuel n : Nat), n < fuel →
    natToDecAux fuel n ≠ [] ∧ (∀ c ∈ natToDecAux fuel n, c.isDigit) ∧
    digitsToNat (natToDecAux fuel n) = n := by
  intro fuel
  induction fuel with
  | zero => intro n h; omega
  | succ m ih =>
    intro n h
    by_cases h10 : n < 10
    · refine ⟨by simp [natToDecAux, h10], ?_, ?_⟩
      · intro c hc
        simp only [natToDecAux, if_pos h10, List.mem_singleton] at hc
        subst hc
        exact (charOfDigit_spec n h10).2
      · simp only [natToDecAux, if_pos h10]
        show digitsToNat ([] ++ [Char.ofNat (48 + n)]) = n
        rw [digitsToNat_append_singleton, (charOfDigit_spec n h10).1]
        simp [digitsToNat]
    · have hdiv : n / 10 < m := by omega
      obtain ⟨h1, h2, h3⟩ := ih (n / 10) hdiv
      simp only [natToDecAux, if_neg h10]
      refine ⟨by simp, ?_, ?_⟩
      · intro c hc
        rcases List.mem_append.1 hc with hc | hc
        · exact h2 c hc
        · simp only [List.mem_singleton] at hc
          subst hc
          exact (charOfDigit_spec (n % 10) (by omega)).2
      · rw [digitsToNat_append_singleton, h3,
          (charOfDigit_spec (n % 10) (by omega)).1]
        omega

/-- `natToDec` renders a nonempty all-digit string whose value is the
input. -/
theorem natToDec_spec (n : Nat) :
    natToDec n ≠ [] ∧ (∀ c ∈ natToDec n, c.isDigit) ∧
    digitsToNat (natToDec n) = n :=
  natToDecAux_spec (n + 1) n (by omega)

/-- `takeWhile` passes over a block that satisfies the predicate. -/
theorem takeWhile_append_all {p : Char → Bool} {l1 l2 : List Char}
    (h : ∀ c ∈ l1, p c) : (l1 ++ l2).takeWhile p = l1 ++ l2.takeWhile p := by
  induction l1 with
  | nil => rfl
  | cons c t ih =>
    rw [List.cons_append, List.takeWhile_cons,
      if_pos (h c (List.mem_cons_self c t)), List.cons_append]
    rw [ih (fun x hx => h x (List.mem_cons_of_mem c hx))]

/-- `dropWhile` passes over a block that satisfies the predicate. -/
theorem dropWhile_append_all {p : Char → Bool} {l1 l2 : List Char}
    (h : ∀ c ∈ l1, p c) : (l1 ++ l2).dropWhile p = l2.dropWhile p := by
  induction l1 with
  | nil => rfl
  | cons c t ih =>
    rw [List.cons_append, List.dropWhile_cons,
      if_pos (h c (List.mem_cons_self c t))]
    exact ih (fun x hx => h x (List.mem_cons_of_mem c hx))

/-- A block whose head refutes the predicate stops `takeWhile` cold. -/
theorem takeWhile_cons_neg {p : Char → Bool} {c : Char} {l : List Char}
    (h : ¬ p c) : (c :: l).takeWhile p = [] := by
  rw [List.takeWhile_cons, if_neg h]

/-- A block whose head refutes the predicate stops `dropWhile` cold. -/
theorem dropWhile_cons_neg {p : Char → Bool} {c : Char} {l : List Char}
    (h : ¬ p c) : (c :: l).dropWhile p = c :: l := by
  rw [List.dropWhile_cons, if_neg h]

/-- If a block contains a predicate violation, `dropWhile` stops inside it,
at its first violating character. -/
theorem dropWhile_stops_inside {p : Char → Bool} {l : List Char}
    (h : ¬ ∀ c ∈ l, p c) :
    ∃ c t, l.dropWhile p = c :: t ∧ ¬ p c ∧ c ∈ l ∧
      ∀ l2 : List Char, (l ++ l2).dropWhile p = c :: (t ++ l2) := by
  induction l with
  | nil => exact absurd (by intro c hc; exact absurd hc (List.not_mem_nil c)) h
  | cons d t ih =>
    by_cases hd : p d
    · have hnot : ¬ ∀ c ∈ t, p c := by
        intro hall
        exact h (fun c hc => by
          rcases List.mem_cons.1 hc with hc | hc
          · subst hc; exact hd
          · exact hall c hc)
      obtain ⟨c, u, h1, h2, h3, h4⟩ := ih hnot
      refine ⟨c, u, ?_, h2, List.mem_cons_of_mem d h3, ?_⟩
      · rw [List.dropWhile_cons, if_pos hd, h1]
      · intro l2
        rw [List.cons_append, List.dropWhile_cons, if_pos hd]
        exact h4 l2
    · refine ⟨d, t, dropWhile_cons_neg hd, hd, List.mem_cons_self d t, ?_⟩
      intro l2
      rw [List.cons_append]
      exact dropWhile_cons_neg hd

end SymbolServer

namespace SymbolServer

/-- The version/build tail matcher accepts the canonical rendering
`<maj>.<min>.<pat>_<build>.memdb` and recovers its components. -/
theorem matchVersionTail_canonical
    (majL minL patL bldL : List Char)
    (hmaj : majL ≠ []) (hmajd : ∀ c ∈ majL, c.isDigit)
    (hmin : minL ≠ []) (hmind : ∀ c ∈ minL, c.isDigit)
    (hpat : patL ≠ []) (hpatd : ∀ c ∈ patL, c.isDigit)
    (hbld : bldL ≠ []) (hblda : ∀ c ∈ bldL, c.isAlphanum)
    (hv1 : digitsToNat majL < 2 ^ 32) (hv2 : digitsToNat minL < 2 ^ 32)
    (hv3 : digitsToNat patL < 2 ^ 32) :
    matchVersionTail (majL ++ '.' :: (minL ++ '.' :: (patL ++ '_' ::
      (bldL ++ ".memdb".toList)))) =
      some (digitsToNat majL, digitsToNat minL, digitsToNat patL,
        String.mk bldL) := by
  have e1 : (majL ++ '.' :: (minL ++ '.' :: (patL ++ '_' ::
      (bldL ++ ".memdb".toList)))).takeWhile Char.isDigit = majL := by
    rw [takeWhile_append_all hmajd, takeWhile_cons_neg (by decide), List.append_nil]
  have e2 : (majL ++ '.' :: (minL ++ '.' :: (patL ++ '_' ::
      (bldL ++ ".memdb".toList)))).dropWhile Char.isDigit =
      '.' :: (minL ++ '.' :: (patL ++ '_' :: (bldL ++ ".memdb".toList))) := by
    rw [dropWhile_append_all hmajd, dropWhile_cons_neg (by decide)]
  have e3 : (minL ++ '.' :: (patL ++ '_' ::
      (bldL ++ ".memdb".toList))).takeWhile Char.isDigit = minL := by
    rw [takeWhile_append_all hmind, takeWhile_cons_neg (by decide), List.append_nil]
  have e4 : (minL ++ '.' :: (patL ++ '_' ::
      (bldL ++ ".memdb".toList))).dropWhile Char.isDigit =
      '.' :: (patL ++ '_' :: (bldL ++ ".memdb".toList)) := by
    rw [dropWhile_append_all hmind, dropWhile_cons_neg (by decide)]
  have e5 : (patL ++ '_' :: (bldL ++ ".memdb".toList)).takeWhile Char.isDigit
      = patL := by
    rw [takeWhile_append_all hpatd, takeWhile_cons_neg (by decide), List.append_nil]
  have e6 : (patL ++ '_' :: (bldL ++ ".memdb".toList)).dropWhile Char.isDigit
      = '_' :: (bldL ++ ".memdb".toList) := by
    rw [dropWhile_append_all hpatd, dropWhile_cons_neg (by decide)]
  have e7 : (bldL ++ ".memdb".toList).takeWhile Char.isAlphanum = bldL := by
    rw [takeWhile_append_all hblda,
      show (".memdb".toList).takeWhile Char.isAlphanum = [] from by decide,
      List.append_nil]
  have e8 : (bldL ++ ".memdb".toList).dropWhile Char.isAlphanum =
      ".memdb".toList := by
    rw [dropWhile_append_all hblda]
    decide
  have hmajE : majL.isEmpty = false := by
    cases majL with
    | nil => exact absurd rfl hmaj
    | cons c t => rfl
  have hminE : minL.isEmpty = false := by
    cases minL with
    | nil => exact absurd rfl hmin
    | cons c t => rfl
  have hpatE : patL.isEmpty = false := by
    cases patL with
    | nil => exact absurd rfl hpat
    | cons c t => rfl
  have hbldE : bldL.isEmpty = false := by
    cases bldL with
    | nil => exact absurd rfl hbld
    | cons c t => rfl
  simp only [matchVersionTail, e1, e2, e3, e4, e5, e6, e7, e8, hmajE, hminE,
    hpatE, hbldE, Bool.false_eq_true, if_false, parseU32]
  rw [if_pos (Or.inr trivial), if_pos hv1, if_pos hv2, if_pos hv3]

/-- The tail starting at the build's underscore never matches the version
pattern: an all-alphanumeric nonempty build followed by `.memdb` cannot
supply `(\d+)\.(\d+)`. -/
theorem matchVersionTail_build_fails (bldL : List Char) (hne : bldL ≠ [])
    (hall : ∀ c ∈ bldL, c.isAlphanum) :
    matchVersionTail (bldL ++ ".memdb".toList) = none := by
  by_cases hd : ∀ c ∈ bldL, c.isDigit
  · have e1 : (bldL ++ ".memdb".toList).takeWhile Char.isDigit = bldL := by
      rw [takeWhile_append_all hd,
        show (".memdb".toList).takeWhile Char.isDigit = [] from by decide,
        List.append_nil]
    have e2 : (bldL ++ ".memdb".toList).dropWhile Char.isDigit =
        '.' :: "memdb".toList := by
      rw [dropWhile_append_all hd]
      decide
    have hbe : bldL.isEmpty = false := by
      cases bldL with
      | nil => exact absurd rfl hne
      | cons c t => rfl
    simp only [matchVersionTail, e1, e2, hbe, Bool.false_eq_true, if_false]
    simp
  · obtain ⟨c, t, h1, h2, h3, h4⟩ := dropWhile_stops_inside hd
    have hcal : c.isAlphanum := hall c h3
    have hcd : c ≠ '.' := by
      intro he
      subst he
      exact absurd hcal (by decide)
    have h4m := h4 ".memdb".toList
    by_cases hd1 : ((bldL ++ ".memdb".toList).takeWhile Char.isDigit).isEmpty
    · simp only [matchVersionTail, hd1]
      rfl
    · simp only [matchVersionTail, h4m, hd1, Bool.false_eq_true, if_false]
      split
      · rename_i heq
        exact absurd (List.head_eq_of_cons_eq heq.symm).symm hcd
      · rfl

end SymbolServer

namespace SymbolServer

/-- On a strictly descending candidate list, `findSome?` returns the value
of candidate `i` when every larger candidate fails. -/
theorem findSome?_descending {β : Type} (g : Nat → Option β) :
    ∀ (l : List Nat) (i : Nat) (v : β), l.Pairwise (fun a b => b < a) →
      i ∈ l → g i = some v → (∀ j ∈ l, i < j → g j = none) →
      l.findSome? g = some v := by
  intro l
  induction l with
  | nil => intro i v _ hmem _ _; exact absurd hmem (List.not_mem_nil i)
  | cons h t ih =>
    intro i v hp hmem hgi hfail
    rw [List.findSome?_cons]
    rcases List.mem_cons.1 hmem with he | ht
    · subst he
      rw [hgi]
    · have hlt : i < h := (List.pairwise_cons.1 hp).1 i ht
      rw [hfail h (List.mem_cons_self h t) hlt]
      exact ih i v (List.pairwise_cons.1 hp).2 ht hgi
        (fun j hj hij => hfail j (List.mem_cons_of_mem h hj) hij)

/-- Reading a concatenation at and around a marker character. -/
theorem split_at_underscore (P B : List Char) :
    (P ++ '_' :: B)[P.length]? = some '_' ∧
    (P ++ '_' :: B).take P.length = P ∧
    (P ++ '_' :: B).drop (P.length + 1) = B := by
  refine ⟨?_, List.take_left P _, ?_⟩
  · rw [List.getElem?_append, if_neg (by omega)]
    simp
  · rw [List.drop_append 1]
    rfl

/-- In `A ++ '_' :: (M ++ '_' :: B)` with no underscore inside `M` or `B`,
an underscore found past `A` sits exactly before `B`. -/
theorem underscore_position_late (A M B : List Char)
    (hM : '_' ∉ M) (hB : '_' ∉ B) (m : Nat) (hm : A.length < m)
    (h : (A ++ '_' :: (M ++ '_' :: B))[m]? = some '_') :
    m = A.length + 1 + M.length := by
  rw [List.getElem?_append, if_neg (by omega)] at h
  have h1 : m - A.length = (m - A.length - 1) + 1 := by omega
  rw [h1, List.getElem?_cons_succ] at h
  rcases lt_trichotomy (m - A.length - 1) M.length with hlt | he | hgt
  · rw [List.getElem?_append, if_pos hlt] at h
    exact absurd (List.getElem?_mem h) hM
  · omega
  · rw [List.getElem?_append, if_neg (by omega)] at h
    have h2 : m - A.length - 1 - M.length = (m - A.length - 1 - M.length - 1) + 1 := by
      omega
    rw [h2, List.getElem?_cons_succ] at h
    exact absurd (List.getElem?_mem h) hB

/-- **C8 (amended).** For every `SdkInfo` whose name is nonempty and free of
`'-'` and whose build is nonempty and alphanumeric (with the version numbers
in `u32` range), parsing the canonical filename
`"<name>_<major>.<minor>.<patch>_<build>.memdb"` yields the same `SdkInfo`,
and formatting the parse result reproduces the filename. -/
theorem sdk_filename_roundtrip (info : SdkInfo)
    (hname : info.name.toList ≠ [])
    (hdash : ∀ c ∈ info.name.toList, c ≠ '-')
    (hbld : info.build.toList ≠ [])
    (hblda : ∀ c ∈ info.build.toList, c.isAlphanum)
    (hv1 : info.version_major < 2 ^ 32)
    (hv2 : info.version_minor < 2 ^ 32)
    (hv3 : info.version_patchlevel < 2 ^ 32) :
    SdkInfo.from_filename info.memdb_filename = some info ∧
    (SdkInfo.from_filename info.memdb_filename).map SdkInfo.memdb_filename =
      some info.memdb_filename := by
  obtain ⟨hmaj, hmajd, hmajv⟩ := natToDec_spec info.version_major
  obtain ⟨hmin, hmind, hminv⟩ := natToDec_spec info.version_minor
  obtain ⟨hpat, hpatd, hpatv⟩ := natToDec_spec info.version_patchlevel
  have hs : info.memdb_filename.toList =
      info.name.toList ++ '_' :: (natToDec info.version_major ++ '.' ::
        (natToDec info.version_minor ++ '.' :: (natToDec info.version_patchlevel
          ++ '_' :: (info.build.toList ++ ".memdb".toList)))) := by
    show (info.name ++ "_" ++ String.mk (natToDec info.version_major) ++ "."
      ++ String.mk (natToDec info.version_minor) ++ "."
      ++ String.mk (natToDec info.version_patchlevel) ++ "_"
      ++ info.build ++ ".memdb").toList = _
    simp only [toList_append]
    simp only [show ("_" : String).toList = ['_'] from rfl,
      show ("." : String).toList = ['.'] from rfl,
      show ∀ l : List Char, (String.mk l).toList = l from fun _ => rfl]
    simp [List.append_assoc]
  have hM : ('_' : Char) ∉ natToDec info.version_major ++ '.' ::
      (natToDec info.version_minor ++ '.' :: natToDec info.version_patchlevel) := by
    intro hmem
    rcases List.mem_append.1 hmem with h | h
    · exact absurd (hmajd _ h) (by decide)
    · rcases List.mem_cons.1 h with h | h
      · exact absurd h (by decide)
      · rcases List.mem_append.1 h with h | h
        · exact absurd (hmind _ h) (by decide)
        · rcases List.mem_cons.1 h with h | h
          · exact absurd h (by decide)
          · exact absurd (hpatd _ h) (by decide)
  have hB : ('_' : Char) ∉ info.build.toList ++ ".memdb".toList := by
    intro hmem
    rcases List.mem_append.1 hmem with h | h
    · exact absurd (hblda _ h) (by decide)
    · exact absurd h (by decide)
  have hs2 : info.memdb_filename.toList =
      info.name.toList ++ '_' :: ((natToDec info.version_major ++ '.' ::
        (natToDec info.version_minor ++ '.' :: natToDec info.version_patchlevel))
          ++ '_' :: (info.build.toList ++ ".memdb".toList)) := by
    rw [hs]
    simp [List.append_assoc]
  have hs3 : info.memdb_filename.toList =
      (info.name.toList ++ '_' :: (natToDec info.version_major ++ '.' ::
        (natToDec info.version_minor ++ '.' :: natToDec info.version_patchlevel)))
          ++ '_' :: (info.build.toList ++ ".memdb".toList) := by
    rw [hs2]
    simp [List.append_assoc]
  have hfirst : SdkInfo.from_filename info.memdb_filename = some info := by
    unfold SdkInfo.from_filename
    apply findSome?_descending _ _ info.name.toList.length info
    · exact List.pairwise_reverse.2 (by
        simpa using List.pairwise_lt_range info.memdb_filename.toList.length)
    · rw [List.mem_reverse, List.mem_range, hs]
      simp
    · obtain ⟨hu, ht, hd⟩ := split_at_underscore info.name.toList
        (natToDec info.version_major ++ '.' :: (natToDec info.version_minor
          ++ '.' :: (natToDec info.version_patchlevel ++ '_' ::
            (info.build.toList ++ ".memdb".toList))))
      rw [if_pos ?hcond]
      case hcond =>
        refine ⟨by rw [hs]; exact hu, ?_, ?_⟩
        · have : info.name.toList.length ≠ 0 := by
            intro h0
            exact hname (List.length_eq_zero.1 h0)
          omega
        · rw [hs, ht, List.all_eq_true]
          intro c hc
          simpa using hdash c hc
      rw [hs, hd, ht]
      rw [matchVersionTail_canonical _ _ _ _ hmaj hmajd hmin hmind hpat hpatd
        hbld hblda (by rw [hmajv]; exact hv1) (by rw [hminv]; exact hv2)
        (by rw [hpatv]; exact hv3)]
      refine Eq.trans (congrArg some ?_) rfl
      rw [hmajv, hminv, hpatv]
      rfl
    · intro j hj hij
      by_cases hund : info.memdb_filename.toList[j]? = some '_'
      · have hj2 : j = info.name.toList.length + 1 +
            (natToDec info.version_major ++ '.' :: (natToDec info.version_minor
              ++ '.' :: natToDec info.version_patchlevel)).length := by
          apply underscore_position_late _ _ _ hM hB j hij
          rw [← hs2]
          exact hund
        by_cases hcond : (info.memdb_filename.toList[j]? = some '_' ∧ 0 < j ∧
            (info.memdb_filename.toList.take j).all (fun c => c ≠ '-'))
        · rw [if_pos hcond]
          obtain ⟨hu2, ht2, hd2⟩ := split_at_underscore
            (info.name.toList ++ '_' :: (natToDec info.version_major ++ '.' ::
              (natToDec info.version_minor ++ '.' ::
                natToDec info.version_patchlevel)))
            (info.build.toList ++ ".memdb".toList)
          have hjlen : j = (info.name.toList ++ '_' ::
              (natToDec info.version_major ++ '.' :: (natToDec info.version_minor
                ++ '.' :: natToDec info.version_patchlevel))).length := by
            rw [List.length_append, List.length_cons]
            omega
          rw [hjlen, hs3, hd2]
          rw [matchVersionTail_build_fails info.build.toList hbld hblda]
          rfl
        · rw [if_neg hcond]
      · rw [if_neg (fun hc => hund hc.1)]
  exact ⟨hfirst, by rw [hfirst]; rfl⟩

end SymbolServer

namespace SymbolServer

/-- Counterexample to **C8** as stated: an `SdkInfo` with an empty build
formats to `"iOS_1.2.3_.memdb"`, whose parse fails (the regex requires a
nonempty alphanumeric build), so not every `SdkInfo` round-trips through its
canonical filename. -/
theorem sdk_filename_roundtrip_counterexample :
    (SdkInfo.mk "iOS" 1 2 3 "").memdb_filename = "iOS_1.2.3_.memdb" ∧
    SdkInfo.from_filename (SdkInfo.mk "iOS" 1 2 3 "").memdb_filename = none := by
  constructor
  · decide
  · decide

/-- Witness for C8 at the spec's concrete example: parsing
`"iOS_10.2.3_14C93.memdb"` yields `(iOS, 10, 2, 3, "14C93")` and its
canonical filename is the input. -/
theorem sdk_filename_roundtrip_witness :
    SdkInfo.from_filename (SdkInfo.mk "iOS" 10 2 3 "14C93").memdb_filename =
      some (SdkInfo.mk "iOS" 10 2 3 "14C93") ∧
    (SdkInfo.mk "iOS" 10 2 3 "14C93").memdb_filename = "iOS_10.2.3_14C93.memdb" :=
  ⟨(sdk_filename_roundtrip (SdkInfo.mk "iOS" 10 2 3 "14C93") (by decide)
      (by decide) (by decide) (by decide) (by norm_num) (by norm_num)
      (by norm_num)).1,
    by decide⟩

end SymbolServer

namespace SymbolServer

/-- `sortByAddr` is a permutation. -/
theorem sortByAddr_perm (l : List IndexItem) : (sortByAddr l).Perm l :=
  List.perm_insertionSort _ l

/-- `sortByAddr` sorts by the stored address. -/
theorem sortByAddr_sorted (l : List IndexItem) :
    (sortByAddr l).Pairwise (fun a b => a.addr ≤ b.addr) := by
  haveI : IsTotal IndexItem (fun a b => a.addr ≤ b.addr) :=
    ⟨fun a b => le_total a.addr b.addr⟩
  haveI : IsTrans IndexItem (fun a b => a.addr ≤ b.addr) :=
    ⟨fun a b c hab hbc => le_trans hab hbc⟩
  exact List.sorted_insertionSort _ l

/-- A stable sort by key on distinct keys is strictly sorted. -/
theorem sortByAddr_strict (l : List IndexItem)
    (h : (l.map IndexItem.addr).Nodup) :
    (sortByAddr l).Pairwise (fun a b => a.addr < b.addr) := by
  have hnd : ((sortByAddr l).map IndexItem.addr).Nodup :=
    ((sortByAddr_perm l).map IndexItem.addr).nodup_iff.2 h
  have hne : (sortByAddr l).Pairwise (fun a b => a.addr ≠ b.addr) :=
    List.pairwise_map.1 hnd
  exact ((sortByAddr_sorted l).and hne).imp
    (fun h => lt_of_le_of_ne h.1 h.2)

/-- The UUID-table sort is a permutation. -/
theorem sortUuids_perm (l : List IndexedUuid) :
    (l.insertionSort (fun x y => x.uuid ≤ y.uuid)).Perm l :=
  List.perm_insertionSort _ l

/-- The UUID-table sort sorts by UUID. -/
theorem sortUuids_sorted (l : List IndexedUuid) :
    (l.insertionSort (fun x y => x.uuid ≤ y.uuid)).Pairwise
      (fun a b => a.uuid ≤ b.uuid) := by
  haveI : IsTotal IndexedUuid (fun a b => a.uuid ≤ b.uuid) :=
    ⟨fun a b => le_total a.uuid b.uuid⟩
  haveI : IsTrans IndexedUuid (fun a b => a.uuid ≤ b.uuid) :=
    ⟨fun a b c hab hbc => le_trans hab hbc⟩
  exact List.sorted_insertionSort _ l

/-- On distinct UUIDs the sorted UUID table is strictly ascending. -/
theorem sortUuids_strict (l : List IndexedUuid)
    (h : (l.map IndexedUuid.uuid).Nodup) :
    (l.insertionSort (fun x y => x.uuid ≤ y.uuid)).Pairwise
      (fun a b => a.uuid < b.uuid) := by
  have hnd : ((l.insertionSort (fun x y => x.uuid ≤ y.uuid)).map
      IndexedUuid.uuid).Nodup :=
    ((sortUuids_perm l).map IndexedUuid.uuid).nodup_iff.2 h
  have hne := List.pairwise_map.1 hnd
  exact ((sortUuids_sorted l).and hne).imp (fun h => lt_of_le_of_ne h.1 h.2)

/-- The tagged-mapping sort is a permutation. -/
theorem sortTagged_perm (l : List (String × Nat)) :
    (l.insertionSort (fun x y => x.2 ≤ y.2)).Perm l :=
  List.perm_insertionSort _ l

/-- The tagged-mapping sort sorts by UUID. -/
theorem sortTagged_sorted (l : List (String × Nat)) :
    (l.insertionSort (fun x y => x.2 ≤ y.2)).Pairwise
      (fun a b => a.2 ≤ b.2) := by
  haveI : IsTotal (String × Nat) (fun a b => a.2 ≤ b.2) :=
    ⟨fun a b => le_total a.2 b.2⟩
  haveI : IsTrans (String × Nat) (fun a b => a.2 ≤ b.2) :=
    ⟨fun a b c hab hbc => le_trans hab hbc⟩
  exact List.sorted_insertionSort _ l

/-- A successful association-list `lookup` hit is a member entry. -/
theorem mem_of_lookup_eq_some {α β : Type} [BEq α] [LawfulBEq α]
    {l : List (α × β)} {k : α} {v : β} (h : l.lookup k = some v) :
    (k, v) ∈ l := by
  induction l with
  | nil => exact Option.noConfusion h
  | cons p t ih =>
    rw [show p = (p.1, p.2) from rfl, List.lookup_cons] at h
    cases hkp : (k == p.1) with
    | true =>
      simp only [hkp] at h
      have hk : k = p.1 := eq_of_beq hkp
      have hv : v = p.2 := by
        cases h
        rfl
      rw [hk, hv]
      exact List.mem_cons_self _ _
    | false =>
      simp only [hkp] at h
      exact List.mem_cons_of_mem _ (ih h)

/-- What `add_symbol` does to the builder. -/
theorem add_symbol_spec (b : MemDbBuilder) (sym : String) (hinv : InvMaps b)
    (hcap : b.symbols.length < 2 ^ 32) :
    (b.add_symbol sym).1.symbols[(b.add_symbol sym).2]? = some sym ∧
    (∃ t, (b.add_symbol sym).1.symbols = b.symbols ++ t) ∧
    (b.add_symbol sym).1.symbols.length ≤ b.symbols.length + 1 ∧
    (b.add_symbol sym).1.object_names = b.object_names ∧
    (b.add_symbol sym).1.object_names_map = b.object_names_map ∧
    (b.add_symbol sym).1.variants = b.variants ∧
    (b.add_symbol sym).1.variant_uuids = b.variant_uuids ∧
    (b.add_symbol sym).1.variant_uuids_seen = b.variant_uuids_seen ∧
    (b.add_symbol sym).1.object_uuid_mapping = b.object_uuid_mapping ∧
    InvMaps (b.add_symbol sym).1 := by
  rcases hl : b.symbols_map.lookup sym with _ | sym_id
  · have hstep : b.add_symbol sym =
        ({ b with symbols := b.symbols ++ [sym]
                  symbols_map := b.symbols_map
                    ++ [(sym, b.symbols.length % 2 ^ 32)] },
          b.symbols.length % 2 ^ 32) := by
      unfold MemDbBuilder.add_symbol
      rw [hl]
    have hid : b.symbols.length % 2 ^ 32 = b.symbols.length :=
      Nat.mod_eq_of_lt hcap
    rw [hstep]
    refine ⟨?_, ⟨[sym], rfl⟩, by simp, rfl, rfl, rfl, rfl, rfl, rfl, ?_, hinv.2⟩
    · show (b.symbols ++ [sym])[b.symbols.length % 2 ^ 32]? = some sym
      rw [hid, List.getElem?_concat_length]
    · intro p hp
      have hp2 : p ∈ b.symbols_map ++ [(sym, b.symbols.length % 2 ^ 32)] := hp
      show (b.symbols ++ [sym])[p.2]? = some p.1
      rcases List.mem_append.1 hp2 with h | h
      · exact getElem?_append_of_some (hinv.1 p h)
      · simp only [List.mem_singleton] at h
        subst h
        rw [hid, List.getElem?_concat_length]
  · have hstep : b.add_symbol sym = (b, sym_id) := by
      unfold MemDbBuilder.add_symbol
      rw [hl]
    rw [hstep]
    refine ⟨?_, ⟨[], by simp⟩, Nat.le_succ _, rfl, rfl, rfl, rfl, rfl, rfl, hinv⟩
    exact hinv.1 _ (mem_of_lookup_eq_some hl)

/-- What `add_object_name` does to the builder. -/
theorem add_object_name_spec (b : MemDbBuilder) (src : String) (hinv : InvMaps b)
    (hcap : b.object_names.length < 2 ^ 16) :
    (b.add_object_name src).1.object_names[(b.add_object_name src).2]? = some src ∧
    (∃ t, (b.add_object_name src).1.object_names = b.object_names ++ t) ∧
    (b.add_object_name src).1.object_names.length ≤ b.object_names.length + 1 ∧
    (b.add_object_name src).1.symbols = b.symbols ∧
    (b.add_object_name src).1.symbols_map = b.symbols_map ∧
    (b.add_object_name src).1.variants = b.variants ∧
    (b.add_object_name src).1.variant_uuids = b.variant_uuids ∧
    (b.add_object_name src).1.variant_uuids_seen = b.variant_uuids_seen ∧
    (b.add_object_name src).1.object_uuid_mapping = b.object_uuid_mapping ∧
    InvMaps (b.add_object_name src).1 := by
  rcases hl : b.object_names_map.lookup src with _ | src_id
  · have hstep : b.add_object_name src =
        ({ b with object_names := b.object_names ++ [src]
                  object_names_map := b.object_names_map
                    ++ [(src, b.object_names.length % 2 ^ 16)] },
          b.object_names.length % 2 ^ 16) := by
      unfold MemDbBuilder.add_object_name
      rw [hl]
    have hid : b.object_names.length % 2 ^ 16 = b.object_names.length :=
      Nat.mod_eq_of_lt hcap
    rw [hstep]
    refine ⟨?_, ⟨[src], rfl⟩, by simp, rfl, rfl, rfl, rfl, rfl, rfl, hinv.1, ?_⟩
    · show (b.object_names ++ [src])[b.object_names.length % 2 ^ 16]? = some src
      rw [hid, List.getElem?_concat_length]
    · intro p hp
      have hp2 : p ∈ b.object_names_map ++ [(src, b.object_names.length % 2 ^ 16)] := hp
      show (b.object_names ++ [src])[p.2]? = some p.1
      rcases List.mem_append.1 hp2 with h | h
      · exact getElem?_append_of_some (hinv.2 p h)
      · simp only [List.mem_singleton] at h
        subst h
        rw [hid, List.getElem?_concat_length]
  · have hstep : b.add_object_name src = (b, src_id) := by
      unfold MemDbBuilder.add_object_name
      rw [hl]
    rw [hstep]
    refine ⟨?_, ⟨[], by simp⟩, Nat.le_succ _, rfl, rfl, rfl, rfl, rfl, rfl, hinv⟩
    exact hinv.2 _ (mem_of_lookup_eq_some hl)

end SymbolServer

namespace SymbolServer

/-- What the per-symbol interning loop of `write_object_variant`
(`src/memdb/write.rs:167-171`) does: it extends the accumulator with one
`IndexItem` per `(addr, sym)` pair, at some interned symbol ids `sids` that
resolve to the symbol names, touching nothing in the builder but the symbol
table. -/
theorem symLoop_spec (vmaddr src_id : Nat) :
    ∀ (syms : List (Nat × String)) (b : MemDbBuilder) (acc : List IndexItem),
      InvMaps b → b.symbols.length + syms.length ≤ 2 ^ 32 →
      ∃ (B' : MemDbBuilder) (sids : List Nat),
        syms.foldl (fun (acc : MemDbBuilder × List IndexItem) (p : Nat × String) =>
          ((acc.1.add_symbol p.2).1, acc.2 ++
            [IndexItem.newOpt (rustSub64 p.1 vmaddr) src_id
              (some (acc.1.add_symbol p.2).2)]))
          (b, acc) =
          (B', acc ++ (syms.zip sids).map (fun q =>
            IndexItem.newOpt (rustSub64 q.1.1 vmaddr) src_id (some q.2))) ∧
        sids.length = syms.length ∧
        (∀ (j : Nat) (hj1 : j < sids.length) (hj2 : j < syms.length),
          B'.symbols[sids.get ⟨j, hj1⟩]? = some (syms.get ⟨j, hj2⟩).2 ∧
          sids.get ⟨j, hj1⟩ < B'.symbols.length) ∧
        (∃ t, B'.symbols = b.symbols ++ t) ∧
        B'.symbols.length ≤ b.symbols.length + syms.length ∧
        B'.object_names = b.object_names ∧
        B'.variants = b.variants ∧
        B'.variant_uuids = b.variant_uuids ∧
        B'.variant_uuids_seen = b.variant_uuids_seen ∧
        B'.object_uuid_mapping = b.object_uuid_mapping ∧
        InvMaps B' := by
  intro syms
  induction syms with
  | nil =>
    intro b acc hinv _
    exact ⟨b, [], by simp, rfl, fun j hj1 _ => absurd hj1 (by simp),
      ⟨[], by simp⟩, by simp, rfl, rfl, rfl, rfl, rfl, hinv⟩
  | cons p t ih =>
    intro b acc hinv hcap
    obtain ⟨hget0, ⟨t1, ht1⟩, hlen1, hobj1, hobjm1, hvar1, hvu1, hseen1, hmap1,
      hinv1⟩ := add_symbol_spec b p.2 hinv (by simp at hcap; omega)
    obtain ⟨B', sids, heq, hsl, hjs, ⟨t2, ht2⟩, hlen2, hobj2, hvar2, hvu2,
      hseen2, hmap2, hinv2⟩ := ih (b.add_symbol p.2).1
      (acc ++ [IndexItem.newOpt (rustSub64 p.1 vmaddr) src_id
        (some (b.add_symbol p.2).2)]) hinv1
      (by simp at hcap ⊢; omega)
    refine ⟨B', (b.add_symbol p.2).2 :: sids, ?_, by simp [hsl], ?_,
      ⟨t1 ++ t2, by rw [ht2, ht1, List.append_assoc]⟩, ?_, ?_, ?_, ?_, ?_, ?_,
      hinv2⟩
    · rw [List.foldl_cons]
      show (t.foldl _ ((b.add_symbol p.2).1,
        acc ++ [IndexItem.newOpt (rustSub64 p.1 vmaddr) src_id
          (some (b.add_symbol p.2).2)])) = _
      rw [heq]
      simp [List.append_assoc]
    · intro j hj1 hj2
      cases j with
      | zero =>
        constructor
        · show B'.symbols[(b.add_symbol p.2).2]? = some p.2
          rw [ht2]
          exact getElem?_append_of_some hget0
        · show (b.add_symbol p.2).2 < B'.symbols.length
          have hb : (b.add_symbol p.2).2 < (b.add_symbol p.2).1.symbols.length := by
            by_contra hc
            rw [List.getElem?_eq_none (by omega)] at hget0
            exact Option.noConfusion hget0
          have : (b.add_symbol p.2).1.symbols.length ≤ B'.symbols.length := by
            rw [ht2]
            simp
          omega
      | succ j =>
        have hj1' : j < sids.length := by simpa using hj1
        have hj2' : j < t.length := by simpa using hj2
        exact hjs j hj1' hj2'
    · simp only [List.length_cons]
      omega
    · rw [hobj2, hobj1]
    · rw [hvar2, hvar1]
    · rw [hvu2, hvu1]
    · rw [hseen2, hseen1]
    · rw [hmap2, hmap1]

end SymbolServer

namespace SymbolServer

/-- What one `write_object_variant` call does on a not-yet-seen UUID
(`src/memdb/write.rs:151-187`): it records the alias, marks the UUID seen,
interns the object name and the symbol names, and appends the variant's
sorted index and its `IndexedUuid` (whose `idx` is the variant's position),
growing the string tables only by appending. -/
theorem wov_spec (b : MemDbBuilder) (v : ObjVariant)
    (hseen : v.uuid ∉ b.variant_uuids_seen) (hinv : InvMaps b)
    (hcap_sym : b.symbols.length + v.syms.length ≤ 2 ^ 32)
    (hcap_obj : b.object_names.length < 2 ^ 16) :
    ∃ (src_id : Nat) (sids : List Nat),
      (b.write_object_variant v).1.object_names[src_id]? = some v.src ∧
      sids.length = v.syms.length ∧
      (∀ (j : Nat) (hj1 : j < sids.length) (hj2 : j < v.syms.length),
        (b.write_object_variant v).1.symbols[sids.get ⟨j, hj1⟩]? =
          some (v.syms.get ⟨j, hj2⟩).2 ∧
        sids.get ⟨j, hj1⟩ < (b.write_object_variant v).1.symbols.length) ∧
      (b.write_object_variant v).1.variants =
        b.variants ++ [sortByAddr (buildIndex v src_id sids)] ∧
      (b.write_object_variant v).1.variant_uuids =
        b.variant_uuids ++ [IndexedUuid.new v.uuid b.variants.length] ∧
      (b.write_object_variant v).1.variant_uuids_seen =
        b.variant_uuids_seen ++ [v.uuid] ∧
      (b.write_object_variant v).1.object_uuid_mapping =
        b.object_uuid_mapping ++ [(v.src ++ ":" ++ v.arch, v.uuid)] ∧
      (∃ t, (b.write_object_variant v).1.symbols = b.symbols ++ t) ∧
      (b.write_object_variant v).1.symbols.length ≤
        b.symbols.length + v.syms.length ∧
      (∃ t, (b.write_object_variant v).1.object_names = b.object_names ++ t) ∧
      (b.write_object_variant v).1.object_names.length ≤
        b.object_names.length + 1 ∧
      InvMaps (b.write_object_variant v).1 := by
  have hc : b.variant_uuids_seen.contains v.uuid = false := by simpa using hseen
  obtain ⟨hsrc, ⟨tO, htO⟩, hlenO, hsymO, hsymmO, hvarO, hvuO, hseenO, hmapO,
    hinvO⟩ := add_object_name_spec
      { b with
        object_uuid_mapping :=
          b.object_uuid_mapping ++ [(v.src ++ ":" ++ v.arch, v.uuid)]
        variant_uuids_seen := b.variant_uuids_seen ++ [v.uuid] }
      v.src hinv hcap_obj
  obtain ⟨B', sids, heq, hsl, hjs, ⟨tS, htS⟩, hlenS, hobjS, hvarS, hvuS,
    hseenS, hmapS, hinvS⟩ := symLoop_spec v.vmaddr
      (({ b with
          object_uuid_mapping :=
            b.object_uuid_mapping ++ [(v.src ++ ":" ++ v.arch, v.uuid)]
          variant_uuids_seen :=
            b.variant_uuids_seen ++ [v.uuid] } : MemDbBuilder).add_object_name
        v.src).2
      v.syms
      (({ b with
          object_uuid_mapping :=
            b.object_uuid_mapping ++ [(v.src ++ ":" ++ v.arch, v.uuid)]
          variant_uuids_seen :=
            b.variant_uuids_seen ++ [v.uuid] } : MemDbBuilder).add_object_name
        v.src).1
      [] hinvO (by rw [hsymO]; exact hcap_sym)
  have hrun : b.write_object_variant v =
      ({ B' with
          variant_uuids :=
            B'.variant_uuids ++ [IndexedUuid.new v.uuid B'.variants.length]
          variants := B'.variants ++
            [sortByAddr (buildIndex v
              (({ b with
                  object_uuid_mapping :=
                    b.object_uuid_mapping ++ [(v.src ++ ":" ++ v.arch, v.uuid)]
                  variant_uuids_seen :=
                    b.variant_uuids_seen ++ [v.uuid] } :
                MemDbBuilder).add_object_name v.src).2 sids)] }, true) := by
    simp only [MemDbBuilder.write_object_variant, hc, Bool.false_eq_true,
      if_false]
    rw [heq]
    by_cases hvm : v.vmsize > 0
    · simp [buildIndex, hvm]
    · simp [buildIndex, hvm]
  refine ⟨(({ b with
      object_uuid_mapping :=
        b.object_uuid_mapping ++ [(v.src ++ ":" ++ v.arch, v.uuid)]
      variant_uuids_seen := b.variant_uuids_seen ++ [v.uuid] } :
    MemDbBuilder).add_object_name v.src).2, sids, ?_, hsl, ?_, ?_, ?_, ?_, ?_,
    ?_, ?_, ?_, ?_, ?_⟩
  · rw [hrun]
    show B'.object_names[_]? = some v.src
    rw [hobjS]
    exact hsrc
  · intro j hj1 hj2
    rw [hrun]
    exact hjs j hj1 hj2
  · rw [hrun]
    show B'.variants ++ _ = _
    rw [hvarS, hvarO]
  · rw [hrun]
    show B'.variant_uuids ++ [IndexedUuid.new v.uuid B'.variants.length] = _
    rw [hvarS, hvarO, hvuS, hvuO]
  · rw [hrun]
    show B'.variant_uuids_seen = _
    rw [hseenS, hseenO]
  · rw [hrun]
    show B'.object_uuid_mapping = _
    rw [hmapS, hmapO]
  · refine ⟨tS, ?_⟩
    rw [hrun]
    show B'.symbols = _
    rw [htS, hsymO]
  · rw [hrun]
    show B'.symbols.length ≤ _
    rw [hsymO] at hlenS
    exact hlenS
  · refine ⟨tO, ?_⟩
    rw [hrun]
    show B'.object_names = _
    rw [hobjS, htO]
  · rw [hrun]
    show B'.object_names.length ≤ _
    rw [hobjS]
    exact hlenO
  · rw [hrun]
    exact hinvS

end SymbolServer

namespace SymbolServer

/-- A list extension only grows the length. -/
theorem length_le_of_append_eq {α : Type} {l l2 : List α} {t : List α}
    (h : l2 = l ++ t) : l.length ≤ l2.length := by
  subst h
  simp

/-- The builder description holds after the writer consumes any variant
list with pairwise-distinct UUIDs that fits the id widths. -/
theorem write_objects_spec : ∀ (vs : List ObjVariant),
    (vs.map (fun w => w.uuid)).Nodup →
    (vs.map (fun w => w.syms.length)).sum ≤ 2 ^ 32 →
    vs.length ≤ 2 ^ 16 →
    BuilderSpec vs (MemDbBuilder.write_objects vs) := by
  intro vs
  induction vs using List.reverseRecOn with
  | nil =>
    intro _ _ _
    exact ⟨rfl, rfl, rfl, rfl, by simp [MemDbBuilder.write_objects,
        MemDbBuilder.new],
      by simp [MemDbBuilder.write_objects, MemDbBuilder.new],
      ⟨fun p hp => absurd hp (List.not_mem_nil p),
        fun p hp => absurd hp (List.not_mem_nil p)⟩,
      fun k hk => absurd hk (by simp)⟩
  | append_singleton vs v ih =>
    intro hnu hcap hlen
    rw [List.map_append, List.nodup_append] at hnu
    obtain ⟨hnu', _, hdisj⟩ := hnu
    have hvnot : v.uuid ∉ vs.map (fun w => w.uuid) := by
      intro hmem
      exact hdisj hmem (by simp)
    rw [List.map_append, List.sum_append] at hcap
    simp only [List.map_cons, List.map_nil, List.sum_cons, List.sum_nil] at hcap
    rw [List.length_append] at hlen
    simp only [List.length_singleton] at hlen
    obtain ⟨ihv, ihvu, ihseen, ihmap, ihsym, ihobj, ihinv, ihk⟩ :=
      ih hnu' (by omega) (by omega)
    have hfold : MemDbBuilder.write_objects (vs ++ [v]) =
        ((MemDbBuilder.write_objects vs).write_object_variant v).1 := by
      unfold MemDbBuilder.write_objects
      rw [List.foldl_concat]
    have hseen : v.uuid ∉ (MemDbBuilder.write_objects vs).variant_uuids_seen := by
      rw [ihseen]
      exact hvnot
    obtain ⟨src_id, sids, wsrc, wsl, wjs, wvar, wvu, wseen, wmap, ⟨tS, wts⟩,
      wlenS, ⟨tO, wto⟩, wlenO, winv⟩ :=
      wov_spec (MemDbBuilder.write_objects vs) v hseen ihinv
        (by omega) (by omega)
    rw [hfold]
    refine ⟨?_, ?_, ?_, ?_, ?_, ?_, winv, ?_⟩
    · rw [wvar]
      simp [ihv]
    · rw [wvu]
      simp [ihvu]
    · rw [wseen, ihseen]
      simp
    · rw [wmap, ihmap]
      simp
    · rw [wts]
      rw [wts] at wlenS
      simp only [List.map_append, List.sum_append, List.map_cons, List.map_nil,
        List.sum_cons, List.sum_nil]
      simp at wlenS ⊢
      omega
    · rw [wto]
      rw [wto] at wlenO
      simp at wlenO ⊢
      omega
    · intro k hk
      have hklen : k < vs.length + 1 := by simpa using hk
      rcases Nat.lt_or_ge k vs.length with hkv | hkv
      · -- an already-processed variant
        have hgetk : (vs ++ [v]).get ⟨k, hk⟩ = vs.get ⟨k, hkv⟩ := by
          simp [List.get_eq_getElem, List.getElem_append_left hkv]
        obtain ⟨hvu_k, src_id', sids', hsrc', hsl', hjs', hvar'⟩ := ihk k hkv
        rw [hgetk]
        constructor
        · rw [wvu]
          exact getElem?_append_of_some hvu_k
        · refine ⟨src_id', sids', ?_, hsl', ?_, ?_⟩
          · rw [wto]
            exact getElem?_append_of_some hsrc'
          · intro j hj1 hj2
            obtain ⟨hja, hjb⟩ := hjs' j hj1 hj2
            refine ⟨by rw [wts]; exact getElem?_append_of_some hja, ?_⟩
            have := length_le_of_append_eq wts
            omega
          · rw [wvar]
            exact getElem?_append_of_some hvar'
      · -- the newly written variant
        have hkeq : k = vs.length := by omega
        subst hkeq
        have hgetk : (vs ++ [v]).get ⟨vs.length, hk⟩ = v := by
          simp [List.get_eq_getElem]
        rw [hgetk]
        constructor
        · rw [wvu, ← ihvu, List.getElem?_concat_length, ihvu, ihv]
        · refine ⟨src_id, sids, wsrc, wsl, wjs, ?_⟩
          rw [wvar, ← ihv, List.getElem?_concat_length]

end SymbolServer

namespace SymbolServer

/-- The stored 48-bit address of a constructed `IndexItem`. -/
theorem indexItem_new_addr (addr src_id sym_id : Nat) :
    (IndexItem.new addr src_id sym_id).addr = addr % 2 ^ 48 := by
  have h48 : (2 : Nat) ^ 48 = 2 ^ 32 * 2 ^ 16 := by norm_num
  rw [IndexItem.new, IndexItem.addr, h48, Nat.mod_mul]
  ring

/-- The stored ids of a constructed `IndexItem`. -/
theorem indexItem_new_ids (addr src_id sym_id : Nat) :
    (IndexItem.new addr src_id sym_id).src_id = src_id % 2 ^ 16 ∧
    (IndexItem.new addr src_id sym_id).sym_id = sym_id % 2 ^ 32 :=
  ⟨rfl, rfl⟩

/-- In a strictly key-sorted list, an element whose key dominates all
others is the last. -/
theorem getLast_eq_of_max {l : List IndexItem}
    (hs : l.Pairwise (fun a b => a.addr < b.addr)) {x : IndexItem}
    (hx : x ∈ l) (hmax : ∀ y ∈ l, y.addr ≤ x.addr) :
    l.getLast? = some x := by
  obtain ⟨i, hi, hix⟩ := List.getElem_of_mem hx
  have hlast : i = l.length - 1 := by
    by_contra hc
    have hilt : i < l.length - 1 := by omega
    have hl1 : l.length - 1 < l.length := by omega
    have hstrict := List.pairwise_iff_getElem.1 hs i (l.length - 1) hi hl1 hilt
    have hle := hmax (l.get ⟨l.length - 1, hl1⟩) (List.get_mem l _ _)
    simp only [List.get_eq_getElem] at hle
    rw [hix] at hstrict
    omega
  rw [List.getLast?_eq_getElem?, List.getElem?_eq_getElem (by omega)]
  subst hlast
  exact congrArg some hix

/-- `binsearch_by_key` on a key-monotone slice computes the last element
whose key is `≤` the probe. -/
theorem binsearch_by_key_eq_filter {α : Type} (l : List α) (q : Nat)
    (f : α → Nat)
    (hmono : ∀ (i j : Nat) (hi : i < l.length) (hj : j < l.length), i ≤ j →
      f (l.get ⟨i, hi⟩) ≤ f (l.get ⟨j, hj⟩)) :
    binsearch_by_key l q f = (l.filter (fun a => f a ≤ q)).getLast? := by
  obtain ⟨r, hr, hlo, hhi, heq⟩ := binsearch_by_key_spec l q f hmono
  have hfil : l.filter (fun a => decide (f a ≤ q)) = l.take r := by
    conv_lhs => rw [← List.take_append_drop r l]
    rw [List.filter_append]
    have h1 : (l.take r).filter (fun a => decide (f a ≤ q)) = l.take r := by
      rw [List.filter_eq_self]
      intro a ha
      obtain ⟨n, hn, hna⟩ := List.mem_iff_getElem.1 ha
      have hnr : n < r := by
        have := List.length_take r l
        omega
      have hnl : n < l.length := by omega
      have := hlo n hnl hnr
      simp only [List.get_eq_getElem] at this
      rw [List.getElem_take] at hna
      rw [← hna]
      simpa using this
    have h2 : (l.drop r).filter (fun a => decide (f a ≤ q)) = [] := by
      rw [List.filter_eq_nil_iff]
      intro a ha
      obtain ⟨n, hn, hna⟩ := List.mem_iff_getElem.1 ha
      have hnl : r + n < l.length := by
        have := List.length_drop r l
        omega
      have := hhi (r + n) hnl (by omega)
      simp only [List.get_eq_getElem] at this
      rw [List.getElem_drop] at hna
      rw [← hna]
      simpa using this
    rw [h1, h2, List.append_nil]
  rw [heq]
  show _ = (l.filter (fun a => decide (f a ≤ q))).getLast?
  rw [hfil]
  by_cases hr0 : 0 < r
  · rw [if_pos hr0, List.getLast?_eq_getElem?, List.length_take,
      List.getElem?_take]
    have hmin : min r l.length = r := by omega
    rw [hmin, if_pos (by omega)]
  · rw [if_neg hr0]
    have : r = 0 := by omega
    subst this
    rfl

end SymbolServer

namespace SymbolServer

/-- Monotone keys from (non-strictly) sorted keys. -/
theorem mono_of_sorted {α : Type} {f : α → Nat} {l : List α}
    (hs : l.Pairwise (fun a b => f a ≤ f b)) :
    ∀ (i j : Nat) (hi : i < l.length) (hj : j < l.length), i ≤ j →
      f (l.get ⟨i, hi⟩) ≤ f (l.get ⟨j, hj⟩) := by
  intro i j hi hj hij
  rcases Nat.lt_or_ge i j with h | h
  · exact List.pairwise_iff_getElem.1 hs i j hi hj h
  · have : i = j := by omega
    subst this
    exact le_refl _

/-- A hit in `getElem?` stays inside the list. -/
theorem lt_of_getElem?_some {α : Type} {l : List α} {i : Nat} {x : α}
    (h : l[i]? = some x) : i < l.length := by
  by_contra hc
  rw [List.getElem?_eq_none (by omega)] at h
  exact Option.noConfusion h

/-- A hit in `getElem?` is a member. -/
theorem mem_of_getElem?_some {α : Type} {l : List α} {i : Nat} {x : α}
    (h : l[i]? = some x) : x ∈ l := by
  obtain ⟨hi, hx⟩ := List.getElem?_eq_some.1 h
  rw [← hx]
  exact List.getElem_mem hi

/-- In a key-sorted list, a member whose key strictly dominates every other
element's key is the last element. -/
theorem getLast_eq_of_unique_max {l : List IndexItem}
    (hs : l.Pairwise (fun a b => a.addr ≤ b.addr)) {x : IndexItem}
    (hx : x ∈ l) (hmax : ∀ y ∈ l, y = x ∨ y.addr < x.addr) :
    l.getLast? = some x := by
  obtain ⟨k, hk, hkx⟩ := List.getElem_of_mem hx
  have hne : 0 < l.length := by omega
  have hl1 : l.length - 1 < l.length := by omega
  rcases hmax (l.get ⟨l.length - 1, hl1⟩) (List.get_mem l _ _) with h | h
  · rw [List.getLast?_eq_getElem?, List.getElem?_eq_getElem hl1]
    exact congrArg some h
  · exfalso
    rcases Nat.lt_or_ge k (l.length - 1) with hk1 | hk1
    · have hle := List.pairwise_iff_getElem.1 hs k (l.length - 1) hk hl1 hk1
      simp only [List.get_eq_getElem] at h
      rw [hkx] at hle
      omega
    · have : k = l.length - 1 := by omega
      subst this
      simp only [List.get_eq_getElem] at h
      rw [hkx] at h
      omega

/-- The UUID projection of the builder's UUID table enumerates the input
variants' UUIDs in order. -/
theorem builder_uuid_proj (vs : List ObjVariant) (B : MemDbBuilder)
    (hB : BuilderSpec vs B) :
    B.variant_uuids.map IndexedUuid.uuid = vs.map (fun w => w.uuid) := by
  obtain ⟨-, hvu, -, -, -, -, -, hks⟩ := hB
  apply List.ext_getElem?
  intro i
  rcases Nat.lt_or_ge i vs.length with hi | hi
  · rw [List.getElem?_map, List.getElem?_map, (hks i hi).1,
      List.getElem?_eq_getElem hi]
    rfl
  · rw [List.getElem?_eq_none (by rw [List.length_map, hvu]; omega),
      List.getElem?_eq_none (by rw [List.length_map]; omega)]

/-- `get_index` on a successful binary-search hit returns the referenced
variant slice. -/
theorem get_index_found (db : MemDbFile) (u : Nat) (e : IndexedUuid)
    (hb : binsearch_by_key db.uuids u (fun iu => iu.uuid) = some e)
    (hu : e.uuid = u) (idx : List IndexItem)
    (hv : db.variants[e.idx]? = some idx) :
    db.get_index u = Except.ok (some idx) := by
  unfold MemDbFile.get_index
  rw [hb]
  show (if e.uuid = u then
      match db.variants[e.idx]? with
      | some index => (Except.ok (some index) :
          Except MemDbError (Option (List IndexItem)))
      | none => Except.error MemDbError.badMemDb
    else Except.ok none) = Except.ok (some idx)
  rw [if_pos hu, hv]

/-- `index_item_to_symbol` with both ids resolving. -/
theorem index_item_to_symbol_ok (db : MemDbFile) (ii : IndexItem)
    (o s : String) (ho : db.object_names[ii.src_id]? = some o)
    (hs : db.symbols[ii.sym_id]? = some s) :
    db.index_item_to_symbol ii =
      Except.ok { object_name := o, symbol := s, addr := ii.addr } := by
  unfold MemDbFile.index_item_to_symbol
  rw [ho, hs]

/-- `lookup_by_uuid` on a non-sentinel binary-search hit that resolves. -/
theorem lookup_found (db : MemDbFile) (u a : Nat) (index : List IndexItem)
    (x : IndexItem) (sym : Symbol)
    (hg : db.get_index u = Except.ok (some index))
    (hb : binsearch_by_key index a (fun ii => ii.addr) = some x)
    (hsent : x.sym_id ≠ sentinelSymId)
    (hres : db.index_item_to_symbol x = Except.ok sym) :
    db.lookup_by_uuid u a = Except.ok (some sym) := by
  unfold MemDbFile.lookup_by_uuid
  rw [hg]
  show (match binsearch_by_key index a (fun ii => ii.addr) with
    | none => (Except.ok none : Except MemDbError (Option Symbol))
    | some ii =>
      if ii.sym_id = sentinelSymId then Except.ok none
      else match db.index_item_to_symbol ii with
        | Except.ok sym => Except.ok (some sym)
        | Except.error e => Except.error e) = Except.ok (some sym)
  rw [hb]
  show (if x.sym_id = sentinelSymId then
      (Except.ok none : Except MemDbError (Option Symbol))
    else match db.index_item_to_symbol x with
      | Except.ok sym => Except.ok (some sym)
      | Except.error e => Except.error e) = Except.ok (some sym)
  rw [if_neg hsent, hres]

/-- `lookup_by_uuid` on a binary-search hit at the sentinel returns `None`. -/
theorem lookup_sentinel (db : MemDbFile) (u a : Nat) (index : List IndexItem)
    (x : IndexItem)
    (hg : db.get_index u = Except.ok (some index))
    (hb : binsearch_by_key index a (fun ii => ii.addr) = some x)
    (hsent : x.sym_id = sentinelSymId) :
    db.lookup_by_uuid u a = Except.ok none := by
  unfold MemDbFile.lookup_by_uuid
  rw [hg]
  show (match binsearch_by_key index a (fun ii => ii.addr) with
    | none => (Except.ok none : Except MemDbError (Option Symbol))
    | some ii =>
      if ii.sym_id = sentinelSymId then Except.ok none
      else match db.index_item_to_symbol ii with
        | Except.ok sym => Except.ok (some sym)
        | Except.error e => Except.error e) = Except.ok none
  rw [hb]
  show (if x.sym_id = sentinelSymId then
      (Except.ok none : Except MemDbError (Option Symbol))
    else match db.index_item_to_symbol x with
      | Except.ok sym => Except.ok (some sym)
      | Except.error e => Except.error e) = Except.ok none
  rw [if_pos hsent]

/-- `lookup_by_uuid` on a binary-search miss returns `None`. -/
theorem lookup_miss (db : MemDbFile) (u a : Nat) (index : List IndexItem)
    (hg : db.get_index u = Except.ok (some index))
    (hb : binsearch_by_key index a (fun ii => ii.addr) = none) :
    db.lookup_by_uuid u a = Except.ok none := by
  unfold MemDbFile.lookup_by_uuid
  rw [hg]
  show (match binsearch_by_key index a (fun ii => ii.addr) with
    | none => (Except.ok none : Except MemDbError (Option Symbol))
    | some ii =>
      if ii.sym_id = sentinelSymId then Except.ok none
      else match db.index_item_to_symbol ii with
        | Except.ok sym => Except.ok (some sym)
        | Except.error e => Except.error e) = Except.ok none
  rw [hb]

/-- Under the builder description with distinct UUIDs, `get_index` of the
flushed file at the `k`-th variant's UUID resolves to its stored slice. -/
theorem flush_get_index (vs : List ObjVariant)
    (hnu : (vs.map (fun w => w.uuid)).Nodup) (hlen : vs.length ≤ 2 ^ 16)
    (B : MemDbBuilder) (hB : BuilderSpec vs B)
    (k : Nat) (hk : k < vs.length) (idx : List IndexItem)
    (hidx : B.variants[k]? = some idx) :
    B.flush.get_index (vs.get ⟨k, hk⟩).uuid = Except.ok (some idx) := by
  have hproj := builder_uuid_proj vs B hB
  have hnodup : (B.variant_uuids.map IndexedUuid.uuid).Nodup := by
    rw [hproj]
    exact hnu
  have hstrict := sortUuids_strict B.variant_uuids hnodup
  have hvuk := (hB.2.2.2.2.2.2.2 k hk).1
  have hmemvu : IndexedUuid.new (vs.get ⟨k, hk⟩).uuid k ∈ B.variant_uuids :=
    mem_of_getElem?_some hvuk
  have hmem' : IndexedUuid.new (vs.get ⟨k, hk⟩).uuid k ∈
      B.variant_uuids.insertionSort (fun x y => x.uuid ≤ y.uuid) :=
    ((sortUuids_perm B.variant_uuids).mem_iff).2 hmemvu
  have hfind : binsearch_by_key B.flush.uuids ((vs.get ⟨k, hk⟩).uuid)
      (fun iu => iu.uuid) = some (IndexedUuid.new (vs.get ⟨k, hk⟩).uuid k) :=
    binsearch_by_key_of_mem hstrict hmem' rfl
  apply get_index_found B.flush _ _ hfind rfl idx
  show B.variants[(IndexedUuid.new (vs.get ⟨k, hk⟩).uuid k).idx]? = some idx
  have hid : (IndexedUuid.new (vs.get ⟨k, hk⟩).uuid k).idx = k := by
    show k % 2 ^ 16 = k
    exact Nat.mod_eq_of_lt (by omega)
  rw [hid]
  exact hidx

end SymbolServer

namespace SymbolServer

/-- The stored address keys of a variant's unsorted index: the relative
symbol addresses in order, then `vmsize` for the sentinel (well-formed
input: symbols inside the text segment, `vmsize` within 48 bits). -/
theorem buildIndex_addrs (v : ObjVariant) (src_id : Nat) (sids : List Nat)
    (hsl : sids.length = v.syms.length)
    (hrange : ∀ p ∈ v.syms,
      v.vmaddr ≤ p.1 ∧ p.1 < 2 ^ 64 ∧ p.1 - v.vmaddr < v.vmsize)
    (hvm : v.vmsize < 2 ^ 48) :
    (buildIndex v src_id sids).map IndexItem.addr =
      v.syms.map (fun p => p.1 - v.vmaddr) ++
        (if 0 < v.vmsize then [v.vmsize] else []) := by
  rw [buildIndex, List.map_append]
  congr 1
  · rw [List.map_map]
    have h1 : (v.syms.zip sids).map
        (IndexItem.addr ∘ fun q =>
          IndexItem.newOpt (rustSub64 q.1.1 v.vmaddr) src_id (some q.2)) =
        (v.syms.zip sids).map (fun q => q.1.1 - v.vmaddr) := by
      apply List.map_congr_left
      intro q hq
      have hqs : q.1 ∈ v.syms :=
        (List.of_mem_zip (show (q.1, q.2) ∈ v.syms.zip sids from hq)).1
      have h := hrange q.1 hqs
      show (IndexItem.newOpt (rustSub64 q.1.1 v.vmaddr) src_id
        (some q.2)).addr = q.1.1 - v.vmaddr
      rw [IndexItem.newOpt, indexItem_new_addr, rustSub64]
      omega
    rw [h1]
    have h2 : (v.syms.zip sids).map (fun q => q.1.1 - v.vmaddr) =
        ((v.syms.zip sids).map Prod.fst).map (fun p => p.1 - v.vmaddr) := by
      rw [List.map_map]
      rfl
    rw [h2, List.map_fst_zip _ _ (by omega)]
  · rcases Nat.eq_zero_or_pos v.vmsize with h0 | h0
    · rw [if_neg (by omega), if_neg (by omega)]
      rfl
    · rw [if_pos h0, if_pos h0]
      show [(IndexItem.newOpt v.vmsize src_id none).addr] = [v.vmsize]
      rw [IndexItem.newOpt, indexItem_new_addr, Nat.mod_eq_of_lt hvm]

/-- Every unsorted-index entry is the sentinel or keyed strictly below
`vmsize` (well-formed input). -/
theorem buildIndex_mem_addr (v : ObjVariant) (src_id : Nat) (sids : List Nat)
    (hrange : ∀ p ∈ v.syms,
      v.vmaddr ≤ p.1 ∧ p.1 < 2 ^ 64 ∧ p.1 - v.vmaddr < v.vmsize)
    (hvm : v.vmsize < 2 ^ 48) :
    ∀ y ∈ buildIndex v src_id sids,
      y = IndexItem.newOpt v.vmsize src_id none ∨ y.addr < v.vmsize := by
  intro y hy
  rw [buildIndex] at hy
  rcases List.mem_append.1 hy with h | h
  · right
    obtain ⟨q, hq, hqy⟩ := List.mem_map.1 h
    have hqs : q.1 ∈ v.syms :=
      (List.of_mem_zip (show (q.1, q.2) ∈ v.syms.zip sids from hq)).1
    have hr := hrange q.1 hqs
    have haddr : (IndexItem.newOpt (rustSub64 q.1.1 v.vmaddr) src_id
        (some q.2)).addr = q.1.1 - v.vmaddr := by
      rw [IndexItem.newOpt, indexItem_new_addr, rustSub64]
      omega
    rw [← hqy, haddr]
    omega
  · left
    rcases Nat.eq_zero_or_pos v.vmsize with h0 | h0
    · rw [if_neg (by omega)] at h
      exact absurd h (List.not_mem_nil y)
    · rw [if_pos h0] at h
      exact List.mem_singleton.1 h

end SymbolServer

namespace SymbolServer

/-- Core of the writer/reader round-trip: under the builder description,
a written symbol pair whose own relative address is unique within its
variant resolves through the flushed file's lookup to its name and object
name — the variant's other pairs may share relative addresses freely. -/
theorem lookup_roundtrip_core (vs : List ObjVariant) (B : MemDbBuilder)
    (hB : BuilderSpec vs B)
    (hnu : (vs.map (fun w => w.uuid)).Nodup)
    (hlen : vs.length ≤ 2 ^ 16)
    (hsymcap : B.symbols.length < 2 ^ 32)
    (v : ObjVariant) (a : Nat) (name : String)
    (hv : v ∈ vs) (hpair : (a, name) ∈ v.syms)
    (huniq : ∀ p ∈ v.syms, p.1 - v.vmaddr = a - v.vmaddr → p = (a, name))
    (hrange : ∀ p ∈ v.syms,
      v.vmaddr ≤ p.1 ∧ p.1 < 2 ^ 64 ∧ p.1 - v.vmaddr < v.vmsize)
    (hvm : v.vmsize < 2 ^ 48) :
    B.flush.lookup_by_uuid v.uuid (a - v.vmaddr) =
      Except.ok (some { object_name := v.src, symbol := name
                        addr := a - v.vmaddr }) := by
  obtain ⟨k, hk, hkv⟩ := List.getElem_of_mem hv
  obtain ⟨hvuk, src_id, sids, hsrc, hsl, hjs, hvar⟩ := hB.2.2.2.2.2.2.2 k hk
  have hkv' : vs.get ⟨k, hk⟩ = v := hkv
  rw [hkv'] at hsrc hsl hjs hvar
  have hgi := flush_get_index vs hnu hlen B hB k hk _ hvar
  rw [hkv'] at hgi
  have hra : v.vmaddr ≤ a ∧ a < 2 ^ 64 ∧ a - v.vmaddr < v.vmsize :=
    hrange (a, name) hpair
  obtain ⟨j, hj, hja⟩ := List.getElem_of_mem hpair
  have hj' : j < sids.length := by omega
  have hja' : v.syms.get ⟨j, hj⟩ = (a, name) := hja
  have hzip : (v.syms.zip sids).get ⟨j, by rw [List.length_zip]; omega⟩ =
      ((a, name), sids.get ⟨j, hj'⟩) := by
    simp only [List.get_eq_getElem, List.getElem_zip]
    rw [← hja']
    simp only [List.get_eq_getElem]
  have hxmem : IndexItem.newOpt (rustSub64 a v.vmaddr) src_id
      (some (sids.get ⟨j, hj'⟩)) ∈ buildIndex v src_id sids := by
    rw [buildIndex]
    apply List.mem_append_left
    apply List.mem_map.2
    refine ⟨((a, name), sids.get ⟨j, hj'⟩), ?_, rfl⟩
    rw [← hzip]
    exact List.get_mem _ _ _
  have hxa : (IndexItem.newOpt (rustSub64 a v.vmaddr) src_id
      (some (sids.get ⟨j, hj'⟩))).addr = a - v.vmaddr := by
    rw [IndexItem.newOpt, indexItem_new_addr, rustSub64]
    omega
  have hxmemI : IndexItem.newOpt (rustSub64 a v.vmaddr) src_id
      (some (sids.get ⟨j, hj'⟩)) ∈ sortByAddr (buildIndex v src_id sids) :=
    ((sortByAddr_perm _).mem_iff).2 hxmem
  have hmono := mono_of_sorted (f := fun ii => IndexItem.addr ii)
    (sortByAddr_sorted (buildIndex v src_id sids))
  obtain ⟨r, hr, hlo, hhi, heq⟩ := binsearch_by_key_spec
    (sortByAddr (buildIndex v src_id sids)) (a - v.vmaddr)
    (fun ii => ii.addr) hmono
  obtain ⟨p0, hp0, hp0x⟩ := List.getElem_of_mem hxmemI
  have hgp : (sortByAddr (buildIndex v src_id sids)).get ⟨p0, hp0⟩ =
      IndexItem.newOpt (rustSub64 a v.vmaddr) src_id
        (some (sids.get ⟨j, hj'⟩)) := hp0x
  have hp0r : p0 < r := by
    by_contra hc
    have h := hhi p0 hp0 (by omega)
    have h' : a - v.vmaddr <
        ((sortByAddr (buildIndex v src_id sids)).get ⟨p0, hp0⟩).addr := h
    rw [hgp, hxa] at h'
    omega
  have hr0 : 0 < r := by omega
  have hr1 : r - 1 < (sortByAddr (buildIndex v src_id sids)).length := by
    omega
  have hb : binsearch_by_key (sortByAddr (buildIndex v src_id sids))
      (a - v.vmaddr) (fun ii => ii.addr) =
      some ((sortByAddr (buildIndex v src_id sids)).get ⟨r - 1, hr1⟩) := by
    rw [heq, if_pos hr0, List.getElem?_eq_getElem hr1]
    exact rfl
  have hkey_le : ((sortByAddr (buildIndex v src_id sids)).get
      ⟨r - 1, hr1⟩).addr ≤ a - v.vmaddr := hlo (r - 1) hr1 (by omega)
  have hkey_ge : a - v.vmaddr ≤
      ((sortByAddr (buildIndex v src_id sids)).get ⟨r - 1, hr1⟩).addr := by
    have h : ((sortByAddr (buildIndex v src_id sids)).get ⟨p0, hp0⟩).addr ≤
        ((sortByAddr (buildIndex v src_id sids)).get ⟨r - 1, hr1⟩).addr :=
      hmono p0 (r - 1) hp0 hr1 (by omega)
    rw [hgp, hxa] at h
    exact h
  have hmemB : (sortByAddr (buildIndex v src_id sids)).get ⟨r - 1, hr1⟩ ∈
      buildIndex v src_id sids :=
    ((sortByAddr_perm _).mem_iff).1 (List.get_mem _ _ _)
  have hmemB2 : (sortByAddr (buildIndex v src_id sids)).get ⟨r - 1, hr1⟩ ∈
      (v.syms.zip sids).map (fun q =>
        IndexItem.newOpt (rustSub64 q.1.1 v.vmaddr) src_id (some q.2)) ++
      (if 0 < v.vmsize then [IndexItem.newOpt v.vmsize src_id none]
        else []) := hmemB
  rcases List.mem_append.1 hmemB2 with hmm | hms
  · -- the hit is a per-symbol entry; its relative address equals the
    -- probe, so uniqueness pins its source pair to (a, name)
    obtain ⟨z, hz, hzx⟩ := List.mem_map.1 hmm
    obtain ⟨n, hn, hnz⟩ := List.getElem_of_mem hz
    have hn1 : n < v.syms.length := by
      rw [List.length_zip] at hn
      omega
    have hn2 : n < sids.length := by
      rw [List.length_zip] at hn
      omega
    have hnz' : z = (v.syms.get ⟨n, hn1⟩, sids.get ⟨n, hn2⟩) := by
      rw [← hnz]
      exact List.getElem_zip
    have hz1mem : v.syms.get ⟨n, hn1⟩ ∈ v.syms := List.get_mem _ _ _
    have hrz := hrange _ hz1mem
    have hzx' : IndexItem.newOpt
        (rustSub64 (v.syms.get ⟨n, hn1⟩).1 v.vmaddr) src_id
        (some (sids.get ⟨n, hn2⟩)) =
        (sortByAddr (buildIndex v src_id sids)).get ⟨r - 1, hr1⟩ := by
      rw [← hzx, hnz']
    have hfz : (IndexItem.newOpt
        (rustSub64 (v.syms.get ⟨n, hn1⟩).1 v.vmaddr) src_id
        (some (sids.get ⟨n, hn2⟩))).addr =
        (v.syms.get ⟨n, hn1⟩).1 - v.vmaddr := by
      rw [IndexItem.newOpt, indexItem_new_addr, rustSub64]
      omega
    have hkeyn : ((sortByAddr (buildIndex v src_id sids)).get
        ⟨r - 1, hr1⟩).addr = (v.syms.get ⟨n, hn1⟩).1 - v.vmaddr := by
      rw [← hzx']
      exact hfz
    have hpn : v.syms.get ⟨n, hn1⟩ = (a, name) :=
      huniq _ hz1mem (by omega)
    have hfst : (v.syms.get ⟨n, hn1⟩).1 = a := by
      rw [hpn]
    obtain ⟨hsymn, hsidn⟩ := hjs n hn2 hn1
    rw [hpn] at hsymn
    have hsymn' : B.symbols[sids.get ⟨n, hn2⟩]? = some name := hsymn
    rw [hfst] at hzx'
    have hsidid : (IndexItem.newOpt (rustSub64 a v.vmaddr) src_id
        (some (sids.get ⟨n, hn2⟩))).sym_id = sids.get ⟨n, hn2⟩ := by
      show sids.get ⟨n, hn2⟩ % 2 ^ 32 = sids.get ⟨n, hn2⟩
      exact Nat.mod_eq_of_lt (by omega)
    have hsent : (IndexItem.newOpt (rustSub64 a v.vmaddr) src_id
        (some (sids.get ⟨n, hn2⟩))).sym_id ≠ sentinelSymId := by
      rw [hsidid]
      show sids.get ⟨n, hn2⟩ ≠ 2 ^ 32 - 1
      omega
    have hsrclt : src_id < B.object_names.length := lt_of_getElem?_some hsrc
    have hobjcap : B.object_names.length ≤ vs.length := hB.2.2.2.2.2.1
    have hsrcid : (IndexItem.newOpt (rustSub64 a v.vmaddr) src_id
        (some (sids.get ⟨n, hn2⟩))).src_id = src_id := by
      show src_id % 2 ^ 16 = src_id
      exact Nat.mod_eq_of_lt (by omega)
    have h1 : B.flush.object_names[(IndexItem.newOpt (rustSub64 a v.vmaddr)
        src_id (some (sids.get ⟨n, hn2⟩))).src_id]? = some v.src := by
      show B.object_names[(IndexItem.newOpt (rustSub64 a v.vmaddr) src_id
        (some (sids.get ⟨n, hn2⟩))).src_id]? = some v.src
      rw [hsrcid]
      exact hsrc
    have h2 : B.flush.symbols[(IndexItem.newOpt (rustSub64 a v.vmaddr)
        src_id (some (sids.get ⟨n, hn2⟩))).sym_id]? = some name := by
      show B.symbols[(IndexItem.newOpt (rustSub64 a v.vmaddr) src_id
        (some (sids.get ⟨n, hn2⟩))).sym_id]? = some name
      rw [hsidid]
      exact hsymn'
    have hits := index_item_to_symbol_ok B.flush
      (IndexItem.newOpt (rustSub64 a v.vmaddr) src_id
        (some (sids.get ⟨n, hn2⟩))) v.src name h1 h2
    have hxa2 : (IndexItem.newOpt (rustSub64 a v.vmaddr) src_id
        (some (sids.get ⟨n, hn2⟩))).addr = a - v.vmaddr := by
      rw [IndexItem.newOpt, indexItem_new_addr, rustSub64]
      omega
    rw [hxa2] at hits
    have hb' : binsearch_by_key (sortByAddr (buildIndex v src_id sids))
        (a - v.vmaddr) (fun ii => ii.addr) =
        some (IndexItem.newOpt (rustSub64 a v.vmaddr) src_id
          (some (sids.get ⟨n, hn2⟩))) := by
      rw [hb, ← hzx']
    exact lookup_found B.flush v.uuid (a - v.vmaddr) _ _ _ hgi hb' hsent
      hits
  · -- the hit is not the sentinel: the sentinel's key is vmsize, strictly
    -- above the probe
    exfalso
    rcases Nat.eq_zero_or_pos v.vmsize with h0 | h0
    · rw [if_neg (by omega)] at hms
      exact List.not_mem_nil _ hms
    · rw [if_pos h0] at hms
      have h1 := List.mem_singleton.1 hms
      have h2 : ((sortByAddr (buildIndex v src_id sids)).get
          ⟨r - 1, hr1⟩).addr = v.vmsize := by
        rw [h1, IndexItem.newOpt, indexItem_new_addr, Nat.mod_eq_of_lt hvm]
      omega

end SymbolServer

namespace SymbolServer

/-- C1: writer/reader round-trip.  Corrected: the round-trip holds for a
written pair `(addr, name)` of a variant provided the variants carry
pairwise-distinct UUIDs, the string tables fit their id widths
(strictly fewer than `2^32` symbols, at most `2^16` variants), the
variant's symbols lie inside its text segment (`vmaddr ≤ addr`,
`addr - vmaddr < vmsize < 2^48`), and this pair's own relative address is
unique within the variant (`huniq`: every pair of the variant at relative
address `addr - vmaddr` is this pair; the variant's other pairs may share
relative addresses freely) — then
`lookup_by_uuid(uuid, addr - vmaddr)` returns exactly
`(object_name, name, addr - vmaddr)`.  Without the per-pair uniqueness
proviso the claim fails (see the counterexample): of two symbols written
at one relative address only the later survives lookup. -/
theorem memdb_write_lookup_roundtrip (vs : List ObjVariant) (v : ObjVariant)
    (a : Nat) (name : String)
    (hnu : (vs.map (fun w => w.uuid)).Nodup)
    (hsum : (vs.map (fun w => w.syms.length)).sum < 2 ^ 32)
    (hlen : vs.length ≤ 2 ^ 16)
    (hv : v ∈ vs) (hpair : (a, name) ∈ v.syms)
    (huniq : ∀ p ∈ v.syms, p.1 - v.vmaddr = a - v.vmaddr → p = (a, name))
    (hrange : ∀ p ∈ v.syms,
      v.vmaddr ≤ p.1 ∧ p.1 < 2 ^ 64 ∧ p.1 - v.vmaddr < v.vmsize)
    (hvm : v.vmsize < 2 ^ 48) :
    (MemDbBuilder.write_objects vs).flush.lookup_by_uuid v.uuid
        (a - v.vmaddr) =
      Except.ok (some { object_name := v.src, symbol := name
                        addr := a - v.vmaddr }) := by
  have hB := write_objects_spec vs hnu (le_of_lt hsum) hlen
  have hsymcap : (MemDbBuilder.write_objects vs).symbols.length < 2 ^ 32 := by
    have h := hB.2.2.2.2.1
    omega
  exact lookup_roundtrip_core vs _ hB hnu hlen hsymcap v a name hv hpair
    huniq hrange hvm

/-- Witness: the round-trip at a concrete one-variant input. -/
theorem memdb_write_lookup_roundtrip_witness :
    (MemDbBuilder.write_objects [wObjA]).flush.lookup_by_uuid wObjA.uuid
        (4128 - wObjA.vmaddr) =
      Except.ok (some { object_name := wObjA.src, symbol := "aux"
                        addr := 4128 - wObjA.vmaddr }) :=
  memdb_write_lookup_roundtrip [wObjA] wObjA 4128 "aux" (by decide)
    (by decide) (by decide) (by decide) (by decide) (by decide) (by decide)
    (by decide)

/-- C1 counterexample: two symbols written at the same relative address.
The pair `(256, "_a")` is inserted, but `lookup_by_uuid(7, 256)` returns
the later symbol `"_b"` — the claim's unrestricted "every inserted pair is
recoverable" is false. -/
theorem memdb_write_lookup_roundtrip_counterexample :
    (256, "_a") ∈
      (⟨7, "arm64", "obj", 0, 4096, [(256, "_a"), (256, "_b")]⟩ :
        ObjVariant).syms ∧
    (MemDbBuilder.write_objects
        [⟨7, "arm64", "obj", 0, 4096, [(256, "_a"), (256, "_b")]⟩]
      ).flush.lookup_by_uuid 7 (256 - 0) =
      Except.ok (some { object_name := "obj", symbol := "_b"
                        addr := 256 }) :=
  ⟨by decide, by rfl⟩

end SymbolServer

namespace SymbolServer

/-- C3: sentinel bound.  For a variant with `vmsize > 0` written among
variants with distinct UUIDs (tables within id widths, symbols inside the
text segment, `vmsize` within the stored 48 bits), the flushed index slice
ends in the sentinel entry, whose stored address equals `vmsize` and whose
symbol id is the sentinel id, and every lookup at `addr ≥ vmsize` returns
`None`. -/
theorem memdb_sentinel_bound (vs : List ObjVariant) (v : ObjVariant)
    (hnu : (vs.map (fun w => w.uuid)).Nodup)
    (hsum : (vs.map (fun w => w.syms.length)).sum ≤ 2 ^ 32)
    (hlen : vs.length ≤ 2 ^ 16)
    (hv : v ∈ vs)
    (hrange : ∀ p ∈ v.syms,
      v.vmaddr ≤ p.1 ∧ p.1 < 2 ^ 64 ∧ p.1 - v.vmaddr < v.vmsize)
    (hvm : v.vmsize < 2 ^ 48) (hvm0 : 0 < v.vmsize) :
    ∃ index : List IndexItem,
      (MemDbBuilder.write_objects vs).flush.get_index v.uuid =
        Except.ok (some index) ∧
      (∃ s, index.getLast? = some s ∧ s.addr = v.vmsize ∧
        s.sym_id = sentinelSymId) ∧
      ∀ q, v.vmsize ≤ q →
        (MemDbBuilder.write_objects vs).flush.lookup_by_uuid v.uuid q =
          Except.ok none := by
  have hB := write_objects_spec vs hnu hsum hlen
  obtain ⟨k, hk, hkv⟩ := List.getElem_of_mem hv
  obtain ⟨hvuk, src_id, sids, hsrc, hsl, hjs, hvar⟩ := hB.2.2.2.2.2.2.2 k hk
  have hkv' : vs.get ⟨k, hk⟩ = v := hkv
  rw [hkv'] at hsrc hsl hjs hvar
  have hgi := flush_get_index vs hnu hlen _ hB k hk _ hvar
  rw [hkv'] at hgi
  have hsmem : IndexItem.newOpt v.vmsize src_id none ∈
      buildIndex v src_id sids := by
    rw [buildIndex]
    apply List.mem_append_right
    rw [if_pos hvm0]
    exact List.mem_singleton.2 rfl
  have hsmemI : IndexItem.newOpt v.vmsize src_id none ∈
      sortByAddr (buildIndex v src_id sids) :=
    ((sortByAddr_perm _).mem_iff).2 hsmem
  have hsaddr : (IndexItem.newOpt v.vmsize src_id none).addr = v.vmsize := by
    rw [IndexItem.newOpt, indexItem_new_addr, Nat.mod_eq_of_lt hvm]
  have hssym : (IndexItem.newOpt v.vmsize src_id none).sym_id =
      sentinelSymId := by
    show sentinelSymId % 2 ^ 32 = sentinelSymId
    exact Nat.mod_eq_of_lt (by show (2 : Nat) ^ 32 - 1 < 2 ^ 32; omega)
  have hmax : ∀ y ∈ sortByAddr (buildIndex v src_id sids),
      y = IndexItem.newOpt v.vmsize src_id none ∨ y.addr < v.vmsize :=
    fun y hy => buildIndex_mem_addr v src_id sids hrange hvm y
      (((sortByAddr_perm _).mem_iff).1 hy)
  have hlast : (sortByAddr (buildIndex v src_id sids)).getLast? =
      some (IndexItem.newOpt v.vmsize src_id none) := by
    apply getLast_eq_of_unique_max (sortByAddr_sorted _) hsmemI
    intro y hy
    rcases hmax y hy with h | h
    · exact Or.inl h
    · right
      rw [hsaddr]
      exact h
  refine ⟨sortByAddr (buildIndex v src_id sids), hgi,
    ⟨IndexItem.newOpt v.vmsize src_id none, hlast, hsaddr, hssym⟩, ?_⟩
  intro q hq
  have hne : sortByAddr (buildIndex v src_id sids) ≠ [] := by
    intro h0
    rw [h0] at hsmemI
    exact List.not_mem_nil _ hsmemI
  have hall : ∀ y ∈ sortByAddr (buildIndex v src_id sids), y.addr ≤ q := by
    intro y hy
    rcases hmax y hy with h | h
    · rw [h, hsaddr]
      exact hq
    · omega
  have hmono := mono_of_sorted (f := fun ii => IndexItem.addr ii)
    (sortByAddr_sorted (buildIndex v src_id sids))
  have hbl := binsearch_by_key_last hmono hne hall
  exact lookup_sentinel _ v.uuid q _ _ hgi (by rw [hbl, hlast]) hssym

/-- Witness: the sentinel bound at a concrete one-variant input. -/
theorem memdb_sentinel_bound_witness :
    ∃ index : List IndexItem,
      (MemDbBuilder.write_objects [wObjB]).flush.get_index wObjB.uuid =
        Except.ok (some index) ∧
      (∃ s, index.getLast? = some s ∧ s.addr = wObjB.vmsize ∧
        s.sym_id = sentinelSymId) ∧
      ∀ q, wObjB.vmsize ≤ q →
        (MemDbBuilder.write_objects [wObjB]).flush.lookup_by_uuid
          wObjB.uuid q = Except.ok none :=
  memdb_sentinel_bound [wObjB] wObjB (by decide) (by decide) (by decide)
    (by decide) (by decide) (by decide) (by decide)

end SymbolServer

namespace SymbolServer

/-- C4: lookup boundary semantics for an opened file whose index slice for
a UUID carries strictly ascending stored addresses, no sentinel entries,
and resolvable ids: `lookup_by_uuid` returns the greatest entry whose
address is `≤` the request — in particular a query exactly at a recorded
address returns that entry's symbol, a query strictly between two adjacent
recorded addresses returns the lower one's symbol, and a query below every
recorded address returns `None`. -/
theorem memdb_lookup_boundary (db : MemDbFile) (u : Nat)
    (index : List IndexItem)
    (hg : db.get_index u = Except.ok (some index))
    (hstrict : index.Pairwise (fun a b => a.addr < b.addr))
    (hsent : ∀ ii ∈ index, ii.sym_id ≠ sentinelSymId)
    (hres : ∀ ii ∈ index, ∃ sym,
      db.index_item_to_symbol ii = Except.ok sym) :
    (∀ (i : Nat) (hi : i < index.length) (q : Nat),
      (index.get ⟨i, hi⟩).addr ≤ q →
      (∀ (j : Nat) (hj : j < index.length), i < j →
        q < (index.get ⟨j, hj⟩).addr) →
      ∃ sym, db.index_item_to_symbol (index.get ⟨i, hi⟩) = Except.ok sym ∧
        db.lookup_by_uuid u q = Except.ok (some sym)) ∧
    (∀ (i : Nat) (hi : i < index.length),
      ∃ sym, db.index_item_to_symbol (index.get ⟨i, hi⟩) = Except.ok sym ∧
        db.lookup_by_uuid u ((index.get ⟨i, hi⟩).addr) =
          Except.ok (some sym)) ∧
    (∀ (i : Nat) (hi : i < index.length) (hi1 : i + 1 < index.length)
      (q : Nat), (index.get ⟨i, hi⟩).addr ≤ q →
      q < (index.get ⟨i + 1, hi1⟩).addr →
      ∃ sym, db.index_item_to_symbol (index.get ⟨i, hi⟩) = Except.ok sym ∧
        db.lookup_by_uuid u q = Except.ok (some sym)) ∧
    (∀ q : Nat, (∀ ii ∈ index, q < ii.addr) →
      db.lookup_by_uuid u q = Except.ok none) := by
  have hmono := mono_of_strict_sorted (f := fun ii => IndexItem.addr ii)
    hstrict
  have core : ∀ (i : Nat) (hi : i < index.length) (q : Nat),
      (index.get ⟨i, hi⟩).addr ≤ q →
      (∀ (j : Nat) (hj : j < index.length), i < j →
        q < (index.get ⟨j, hj⟩).addr) →
      ∃ sym, db.index_item_to_symbol (index.get ⟨i, hi⟩) = Except.ok sym ∧
        db.lookup_by_uuid u q = Except.ok (some sym) := by
    intro i hi q hle hgt
    obtain ⟨r, hr, hlo, hhi, heq⟩ := binsearch_by_key_spec index q
      (fun ii => ii.addr) hmono
    have hri : r = i + 1 := by
      rcases Nat.lt_or_ge r (i + 1) with hc | hc
      · exfalso
        have h := hhi i hi (by omega)
        have h' : q < (index.get ⟨i, hi⟩).addr := h
        omega
      · rcases Nat.lt_or_ge (i + 1) r with hc2 | hc2
        · exfalso
          have hi1 : i + 1 < index.length := by omega
          have h1 := hlo (i + 1) hi1 (by omega)
          have h1' : (index.get ⟨i + 1, hi1⟩).addr ≤ q := h1
          have h2 := hgt (i + 1) hi1 (by omega)
          omega
        · omega
    obtain ⟨sym, hsym⟩ := hres (index.get ⟨i, hi⟩) (List.get_mem index i hi)
    refine ⟨sym, hsym, ?_⟩
    have hb : binsearch_by_key index q (fun ii => ii.addr) =
        some (index.get ⟨i, hi⟩) := by
      rw [heq, if_pos (by omega)]
      have hr1 : r - 1 = i := by omega
      rw [hr1, List.getElem?_eq_getElem hi]
      exact rfl
    exact lookup_found db u q index _ sym hg hb
      (hsent _ (List.get_mem index i hi)) hsym
  refine ⟨core, ?_, ?_, ?_⟩
  · intro i hi
    apply core i hi ((index.get ⟨i, hi⟩).addr) (le_refl _)
    intro j hj hij
    exact List.pairwise_iff_getElem.1 hstrict i j hi hj hij
  · intro i hi hi1 q hle hlt
    apply core i hi q hle
    intro j hj hij
    have hj1 : i + 1 ≤ j := hij
    have hm := hmono (i + 1) j hi1 hj hj1
    have hm' : (index.get ⟨i + 1, hi1⟩).addr ≤ (index.get ⟨j, hj⟩).addr := hm
    omega
  · intro q hq
    exact lookup_miss db u q index hg
      (binsearch_by_key_none hmono (fun y hy => hq y hy))

/-- Witness: the boundary semantics at a concrete two-entry index — a
query strictly between the two recorded addresses resolves to the lower
entry. -/
theorem memdb_lookup_boundary_witness :
    ∃ sym, dbBoundary.index_item_to_symbol
        (([IndexItem.new 256 0 0, IndexItem.new 512 0 1] :
          List IndexItem).get ⟨0, by decide⟩) = Except.ok sym ∧
      dbBoundary.lookup_by_uuid 5 300 = Except.ok (some sym) := by
  refine (memdb_lookup_boundary dbBoundary 5
    [IndexItem.new 256 0 0, IndexItem.new 512 0 1] rfl (by decide)
    (by decide) ?_).2.2.1 0 (by decide) (by decide) 300 (by decide)
    (by decide)
  intro ii hii
  rcases List.mem_cons.1 hii with h | hii2
  · exact ⟨{ object_name := "o", symbol := "s0", addr := 256 },
      by rw [h]; rfl⟩
  · rcases List.mem_cons.1 hii2 with h | h3
    · exact ⟨{ object_name := "o", symbol := "s1", addr := 512 },
        by rw [h]; rfl⟩
    · exact absurd h3 (List.not_mem_nil ii)

end SymbolServer

namespace SymbolServer

/-- C9: parallel tables.  Corrected: when every variant carries a fresh
UUID (and the tables fit their id widths), the flushed UUID table is
strictly ascending and the tagged-object region is parallel to it — the
`i`-th tagged record's UUID is the `i`-th UUID-table entry's UUID, both
tables enumerate the inputs, every tagged record spells a variant's
`"<src>:<arch>"` alias, and every alias is recorded.  The claim's "holds
also when a UUID is encountered more than once" is false: a repeated UUID
adds a tagged record but no UUID-table entry, desynchronising the tables
(see the counterexample). -/
theorem memdb_parallel_tables (vs : List ObjVariant)
    (hnu : (vs.map (fun w => w.uuid)).Nodup)
    (hsum : (vs.map (fun w => w.syms.length)).sum ≤ 2 ^ 32)
    (hlen : vs.length ≤ 2 ^ 16) :
    (MemDbBuilder.write_objects vs).flush.uuids.Pairwise
      (fun a b => a.uuid < b.uuid) ∧
    (MemDbBuilder.write_objects vs).flush.uuids.map IndexedUuid.uuid =
      (MemDbBuilder.write_objects vs).flush.tagged_object_mapping.map
        Prod.snd ∧
    (MemDbBuilder.write_objects vs).flush.uuids.length = vs.length ∧
    (MemDbBuilder.write_objects vs).flush.tagged_object_mapping.length =
      vs.length ∧
    (∀ p ∈ (MemDbBuilder.write_objects vs).flush.tagged_object_mapping,
      ∃ w ∈ vs, p = (w.src ++ ":" ++ w.arch, w.uuid)) ∧
    (∀ w ∈ vs, (w.src ++ ":" ++ w.arch, w.uuid) ∈
      (MemDbBuilder.write_objects vs).flush.tagged_object_mapping) := by
  have hB := write_objects_spec vs hnu hsum hlen
  have hproj := builder_uuid_proj vs _ hB
  have hmapq := hB.2.2.2.1
  have hvulen := hB.2.1
  have huu : (MemDbBuilder.write_objects vs).flush.uuids =
      (MemDbBuilder.write_objects vs).variant_uuids.insertionSort
        (fun x y => x.uuid ≤ y.uuid) := rfl
  have htm : (MemDbBuilder.write_objects vs).flush.tagged_object_mapping =
      (MemDbBuilder.write_objects vs).object_uuid_mapping.insertionSort
        (fun x y => x.2 ≤ y.2) := rfl
  have hnodup : ((MemDbBuilder.write_objects vs).variant_uuids.map
      IndexedUuid.uuid).Nodup := by
    rw [hproj]
    exact hnu
  refine ⟨?_, ?_, ?_, ?_, ?_, ?_⟩
  · rw [huu]
    exact sortUuids_strict _ hnodup
  · have hperm1 : ((MemDbBuilder.write_objects vs).flush.uuids.map
        IndexedUuid.uuid).Perm (vs.map (fun w => w.uuid)) := by
      rw [huu, ← hproj]
      exact (sortUuids_perm _).map _
    have hperm2 : ((MemDbBuilder.write_objects vs).flush.tagged_object_mapping.map
        Prod.snd).Perm (vs.map (fun w => w.uuid)) := by
      rw [htm]
      have hp := (sortTagged_perm
        (MemDbBuilder.write_objects vs).object_uuid_mapping).map Prod.snd
      have hmm : ((MemDbBuilder.write_objects vs).object_uuid_mapping.map
          Prod.snd) = vs.map (fun w => w.uuid) := by
        rw [hmapq, List.map_map]
        exact rfl
      rw [hmm] at hp
      exact hp
    have hsorted1 : ((MemDbBuilder.write_objects vs).flush.uuids.map
        IndexedUuid.uuid).Pairwise (fun a b => a ≤ b) := by
      rw [huu]
      exact List.pairwise_map.2 (sortUuids_sorted _)
    have hsorted2 : ((MemDbBuilder.write_objects vs).flush.tagged_object_mapping.map
        Prod.snd).Pairwise (fun a b => a ≤ b) := by
      rw [htm]
      exact List.pairwise_map.2 (sortTagged_sorted _)
    exact List.eq_of_perm_of_sorted (hperm1.trans hperm2.symm) hsorted1
      hsorted2
  · rw [huu, (sortUuids_perm _).length_eq, hvulen]
  · rw [htm, (sortTagged_perm _).length_eq, hmapq, List.length_map]
  · intro p hp
    rw [htm] at hp
    have hp2 := (sortTagged_perm _).mem_iff.1 hp
    rw [hmapq] at hp2
    obtain ⟨w, hw, hwp⟩ := List.mem_map.1 hp2
    exact ⟨w, hw, hwp.symm⟩
  · intro w hw
    rw [htm]
    apply ((sortTagged_perm _).mem_iff).2
    rw [hmapq]
    exact List.mem_map_of_mem _ hw

/-- Witness: the parallel-table correspondence at a concrete
two-variant input with fresh UUIDs. -/
theorem memdb_parallel_tables_witness :
    (MemDbBuilder.write_objects [wObjA, wObjB]).flush.uuids.map
        IndexedUuid.uuid =
      (MemDbBuilder.write_objects [wObjA, wObjB]).flush.tagged_object_mapping.map
        Prod.snd :=
  (memdb_parallel_tables [wObjA, wObjB] (by decide) (by decide)
    (by decide)).2.1

/-- C9 counterexample: a UUID encountered twice.  The tagged region gains
a record for every alias while the UUID table indexes the variant once, so
the two tables have different lengths and disagree at index 1 — the
claim's parallelism under repeated UUIDs is false. -/
theorem memdb_parallel_tables_counterexample :
    (MemDbBuilder.write_objects
        [⟨5, "arm64", "a", 0, 0, []⟩, ⟨5, "arm64", "b", 0, 0, []⟩,
          ⟨9, "arm64", "c", 0, 0, []⟩]).flush.uuids.length = 2 ∧
    (MemDbBuilder.write_objects
        [⟨5, "arm64", "a", 0, 0, []⟩, ⟨5, "arm64", "b", 0, 0, []⟩,
          ⟨9, "arm64", "c", 0, 0, []⟩]).flush.tagged_object_mapping.length
      = 3 ∧
    ((MemDbBuilder.write_objects
        [⟨5, "arm64", "a", 0, 0, []⟩, ⟨5, "arm64", "b", 0, 0, []⟩,
          ⟨9, "arm64", "c", 0, 0, []⟩]).flush.uuids.map
        IndexedUuid.uuid)[1]? = some 9 ∧
    ((MemDbBuilder.write_objects
        [⟨5, "arm64", "a", 0, 0, []⟩, ⟨5, "arm64", "b", 0, 0, []⟩,
          ⟨9, "arm64", "c", 0, 0, []⟩]).flush.tagged_object_mapping.map
        Prod.snd)[1]? = some 5 := by
  refine ⟨rfl, rfl, rfl, rfl⟩

end SymbolServer
